import Mathlib

/-!
Boundary-tag heap allocator (`memory.c`).

A shallow embedding of the allocator engine of `memory.c`: the simulated heap
is a byte array, block headers and footers are 32-bit words holding the
bit-fields `size : 29`, `allocated : 1`, `padding : 2`.

Modelling conventions.

* Addresses are byte offsets from `heap`; `NULL` is `none`.
* The bit-field word is laid out the way GCC and Clang do on little-endian
  targets: `size` in bits 0..28, `allocated` in bit 29, `padding` in bits
  30..31, the word stored least significant byte first.
* `size_t` is 64 bits wide; every `size_t` expression that can wrap is taken
  modulo `2 ^ 64`.  The loop counter `int i` of `myalloc` never leaves
  `[0, 2 ^ 31)` because `i < current_heap_size ≤ 400000` before each addition
  of a 29-bit size.
* An access outside `heap[0 .. INITIAL_HEAP_SIZE)` is undefined behaviour in C
  and is reported as `Fault.outOfBounds`; a scan that does not end is reported
  as `Fault.nonTermination`.
-/

namespace Memory

/-! ## Constants and globals -/

abbrev INITIAL_HEAP_SIZE : Nat := 4000
abbrev MAX_HEAP_SIZE : Nat := 400000
abbrev WORD_SIZE : Nat := 4

/-- The value of `sizeof(BlockHeader)`: one 32-bit word. -/
abbrev HDR : Nat := 4

/-- Modulus of `size_t` arithmetic. -/
abbrev SIZE_MOD : Nat := 18446744073709551616

/-- Ways in which a call has no defined result. -/
inductive Fault where
  | outOfBounds
  | overlappingCopy
  | nonTermination
  | illFormed
  deriving DecidableEq, Repr

/-- The global variables of the program: the bytes of `heap` (by offset),
`current_heap_size` and the two policy flags. -/
structure State where
  heap : Nat → Nat
  current_heap_size : Nat
  use_first_fit : Int
  use_implicit_list : Int

/-- The globals as the C initialisers leave them: a zeroed array, size 4000,
both flags 1. -/
def start : State :=
  { heap := fun _ => 0, current_heap_size := INITIAL_HEAP_SIZE,
    use_first_fit := 1, use_implicit_list := 1 }

/-! ## Header words -/

/-- The 32-bit word stored at offset `o`, least significant byte first. -/
def hdrWord (m : Nat → Nat) (o : Nat) : Nat :=
  m o + 256 * m (o + 1) + 65536 * m (o + 2) + 16777216 * m (o + 3)

/-- Store the low 32 bits of `w` at offset `o`. -/
def putWord (m : Nat → Nat) (o w : Nat) : Nat → Nat := fun k =>
  if k = o then w % 256
  else if k = o + 1 then w / 256 % 256
  else if k = o + 2 then w / 65536 % 256
  else if k = o + 3 then w / 16777216 % 256
  else m k

/-- Read of the bit-field `size` of the header at `o`. -/
def getSize (m : Nat → Nat) (o : Nat) : Nat := hdrWord m o % 536870912

/-- Read of the bit-field `allocated` of the header at `o`. -/
def getAllocated (m : Nat → Nat) (o : Nat) : Nat := hdrWord m o / 536870912 % 2

/-- Assignment to the bit-field `size`: the value is truncated to 29 bits, the
other bits of the word are kept. -/
def setSize (m : Nat → Nat) (o v : Nat) : Nat → Nat :=
  putWord m o (hdrWord m o / 536870912 * 536870912 + v % 536870912)

/-- Assignment to the bit-field `allocated`: bit 29 is replaced, the other bits
of the word are kept. -/
def setAllocated (m : Nat → Nat) (o a : Nat) : Nat → Nat :=
  putWord m o (hdrWord m o / 1073741824 * 1073741824 + a % 2 * 536870912
    + hdrWord m o % 536870912)

/-- A word access at offset `o` must lie inside the array `heap`. -/
def chk (o : Nat) : Except Fault Unit :=
  if o + HDR ≤ INITIAL_HEAP_SIZE then pure () else throw Fault.outOfBounds

/-- Pointer subtraction `a - b` in bytes; a result before `heap` is out of
bounds. -/
def ptrSub (a b : Nat) : Except Fault Nat :=
  if b ≤ a then pure (a - b) else throw Fault.outOfBounds

/-- The library routine `memcpy(dst, src, n)` on the heap bytes. -/
def copyBytes (m : Nat → Nat) (dst src n : Nat) : Nat → Nat := fun k =>
  if dst ≤ k ∧ k < dst + n then m (src + (k - dst)) else m k

/-! ## The allocator -/

/-- Body of `initializeHeap`. -/
def initializeHeap (s : State) : State :=
  let h1 := setSize s.heap 0 INITIAL_HEAP_SIZE
  let h2 := setAllocated h1 0 0
  let h3 := putWord h2 (INITIAL_HEAP_SIZE - HDR) (hdrWord h2 0)
  { s with heap := h3 }

/-- The body of the `if` in the loop of `myalloc` (lines 49-64): the free block
at offset `i` has been chosen; split it when more than one header of room is
left over, mark it allocated, rewrite its footer, return its payload. -/
def myalloc_place (s : State) (total_size i : Nat) : Except Fault (State × Option Nat) := do
  let block_size := getSize s.heap i
  let remaining_size := block_size - total_size
  let s1 ← (if remaining_size > HDR then do
      let h1 := setSize s.heap i total_size
      let new_header := i + total_size
      chk new_header
      let h2 := setSize h1 new_header remaining_size
      let h3 := setAllocated h2 new_header 0
      let new_footer ← ptrSub (new_header + remaining_size) HDR
      chk new_footer
      let h4 := putWord h3 new_footer (hdrWord h3 new_header)
      pure { s with heap := h4 }
    else pure s)
  let h5 := setAllocated s1.heap i 1
  let footer ← ptrSub (i + getSize h5 i) HDR
  chk footer
  let h6 := setAllocated h5 footer 1
  let h7 := setSize h6 footer (getSize h6 i)
  pure ({ s1 with heap := h7 }, some (i + HDR))

/-- The `for` loop of `myalloc` started at offset `i`, with `total_size`
already computed.  One unit of fuel is spent per iteration. -/
def myalloc_scan (s : State) (total_size : Nat) : Nat → Nat → Except Fault (State × Option Nat)
  | 0, _ => throw Fault.nonTermination
  | fuel + 1, i =>
    if i < s.current_heap_size then do
      chk i
      let block_size := getSize s.heap i
      if getAllocated s.heap i = 0 ∧ block_size ≥ total_size then
        myalloc_place s total_size i
      else myalloc_scan s total_size fuel (i + block_size)
    else pure (s, none)

/-- The rounded request of `myalloc`: `size + 2 * sizeof(BlockHeader)` rounded
up to a multiple of 8, in `size_t` arithmetic. -/
def totalSize (size : Nat) : Nat :=
  let total_size := (size + 2 * HDR) % SIZE_MOD
  (total_size + (if total_size % 8 ≠ 0 then 8 - total_size % 8 else 0)) % SIZE_MOD

/-- The function `myalloc`.  The scan visits at most `current_heap_size`
blocks of non-zero size, so `current_heap_size + 1` units of fuel run out only
when the C loop does not terminate. -/
def myalloc (s : State) (size : Nat) : Except Fault (State × Option Nat) :=
  myalloc_scan s (totalSize size) (s.current_heap_size + 1) 0

/-- The part of `myfree` headed "Coalesce if next block is free" (lines
108-116).  `m` is the heap after both tags were marked free; the result is the
heap and the local `block_size` afterwards. -/
def myfree_next (cur : Nat) (m : Nat → Nat) (header footer block_size : Nat) :
    Except Fault ((Nat → Nat) × Nat) := do
  let next_header := footer + HDR
  if next_header < cur then do
    chk next_header
    if getAllocated m next_header = 0 then do
      let next_block_size := getSize m next_header
      let block_size := block_size + next_block_size
      let m1 := setSize m header block_size
      let next_footer ← ptrSub (next_header + next_block_size) HDR
      chk next_footer
      pure (setSize m1 next_footer block_size, block_size)
    else pure (m, block_size)
  else pure (m, block_size)

/-- The part of `myfree` headed "Coalesce if previous block is free" (lines
119-128).  `footer` is still the footer computed before the forward step. -/
def myfree_prev (m : Nat → Nat) (header footer block_size : Nat) :
    Except Fault (Nat → Nat) := do
  if header > 0 then do
    let prev_footer ← ptrSub header HDR
    chk prev_footer
    if getAllocated m prev_footer = 0 then do
      let prev_header ← ptrSub header (getSize m prev_footer)
      chk prev_header
      let total_size := getSize m prev_header + block_size
      let m1 := setSize m prev_header total_size
      pure (setSize m1 footer total_size)
    else pure m
  else pure m

/-- The function `myfree`. -/
def myfree (s : State) : Option Nat → Except Fault State
  | none => pure s
  | some ptr => do
    let header ← ptrSub ptr HDR
    chk header
    let h1 := setAllocated s.heap header 0
    let block_size := getSize h1 header
    let footer ← ptrSub (header + block_size) HDR
    chk footer
    let h2 := setAllocated h1 footer 0
    let r ← myfree_next s.current_heap_size h2 header footer block_size
    let h3 ← myfree_prev r.1 header footer r.2
    pure { s with heap := h3 }

/-- The function `myrealloc`. -/
def myrealloc (s : State) (ptr : Option Nat) (size : Nat) : Except Fault (State × Option Nat) :=
  match ptr with
  | none => myalloc s size
  | some p => do
    let header ← ptrSub p HDR
    chk header
    let old_size := (getSize s.heap header + SIZE_MOD - 2 * HDR) % SIZE_MOD
    if size = 0 then do
      let s1 ← myfree s (some p)
      pure (s1, none)
    else do
      let r ← myalloc s size
      match r.2 with
      | some new_ptr => do
        let n := if old_size < size then old_size else size
        if new_ptr + n ≤ INITIAL_HEAP_SIZE ∧ p + n ≤ INITIAL_HEAP_SIZE then do
          if n = 0 ∨ new_ptr + n ≤ p ∨ p + n ≤ new_ptr then do
            let s2 := { r.1 with heap := copyBytes r.1.heap new_ptr p n }
            let s3 ← myfree s2 (some p)
            pure (s3, some new_ptr)
          else throw Fault.overlappingCopy
        else throw Fault.outOfBounds
      | none => pure (r.1, none)

/-- The function `mysbrk`; `size` is a C `int`, the sum is formed in `size_t`. -/
def mysbrk (s : State) (size : Int) : State :=
  let new_size := ((s.current_heap_size : Int) + size) % (SIZE_MOD : Int)
  if new_size > MAX_HEAP_SIZE ∨ new_size < INITIAL_HEAP_SIZE then s
  else { s with current_heap_size := new_size.toNat }

/-! ## Header walk and operation sequences -/

/-- A block as the header walk sees it: offset of its header, and the `size`
and `allocated` fields read there. -/
structure Block where
  off : Nat
  size : Nat
  allocated : Nat
  deriving DecidableEq, Repr

/-- The header walk from offset `i`, stepping by `header.size` while
`i < current_heap_size`.  A block is a run of bytes of the array `heap`: the
walk has no result when a header or a block does not lie inside the array, or
when a header has size zero (the walk would stay there forever). -/
def walkFrom (s : State) : Nat → Nat → Option (List Block)
  | 0, _ => none
  | fuel + 1, i =>
    if i < s.current_heap_size then
      if i + HDR ≤ INITIAL_HEAP_SIZE ∧ i + getSize s.heap i ≤ INITIAL_HEAP_SIZE then
        if getSize s.heap i = 0 then none
        else (walkFrom s fuel (i + getSize s.heap i)).map
          (fun bs => { off := i, size := getSize s.heap i,
                       allocated := getAllocated s.heap i } :: bs)
      else none
    else some []

/-- The header walk from offset 0. -/
def headerWalk (s : State) : Option (List Block) :=
  walkFrom s (s.current_heap_size + 1) 0

/-- The headers the walk from offset `i` reads, whether or not it can be
completed: it stops after a header of size zero and before a header outside
the array. -/
def visitedFrom (s : State) : Nat → Nat → List Block
  | 0, _ => []
  | fuel + 1, i =>
    if i < s.current_heap_size ∧ i + HDR ≤ INITIAL_HEAP_SIZE then
      { off := i, size := getSize s.heap i, allocated := getAllocated s.heap i } ::
        (if getSize s.heap i = 0 then [] else visitedFrom s fuel (i + getSize s.heap i))
    else []

/-- The headers the walk from offset 0 reads. -/
def visited (s : State) : List Block :=
  visitedFrom s (s.current_heap_size + 1) 0

/-- The walk partitions the region: it can be completed and the sizes of its
blocks sum to `current_heap_size`. -/
def Partitioned (s : State) (bs : List Block) : Prop :=
  headerWalk s = some bs ∧ (bs.map Block.size).sum = s.current_heap_size

/-- Footer word of a block equals its header word. -/
def footerMatches (s : State) (b : Block) : Bool :=
  hdrWord s.heap (b.off + b.size - HDR) == hdrWord s.heap b.off

/-- No two consecutive blocks of a walk are both free. -/
def noAdjacentFree : List Block → Bool
  | a :: b :: rest => !(a.allocated == 0 && b.allocated == 0) && noAdjacentFree (b :: rest)
  | _ => true

/-- The byte ranges `[p, p + n)` and `[q, m + q)` of two live entries are
disjoint. -/
def disjointRanges (e f : Nat × Nat) : Bool :=
  decide (e.1 + e.2 ≤ f.1) || decide (f.1 + f.2 ≤ e.1)

/-- An operation of a client of the allocator. -/
inductive Op where
  | alloc (n : Nat)
  | free (p : Nat)
  | realloc (p : Option Nat) (n : Nat)
  deriving DecidableEq, Repr

/-- The allocator together with the client's view: the live addresses, each
with the request it was obtained for, most recent first. -/
structure Sys where
  st : State
  live : List (Nat × Nat)

/-- Whether `p` is a live address. -/
def isLive (live : List (Nat × Nat)) (p : Nat) : Bool := live.any (fun e => e.1 == p)

/-- The live table without `p`. -/
def dropLive (live : List (Nat × Nat)) (p : Nat) : List (Nat × Nat) :=
  live.filter (fun e => e.1 != p)

/-- One well-formed operation, with the address the call returns (`none` for
`NULL` and for `myfree`): requests are `size_t` values, `myfree` and
`myrealloc` are given a live address (or `NULL` for `myrealloc`).  Anything
else is `Fault.illFormed`. -/
def exec (y : Sys) : Op → Except Fault (Sys × Option Nat)
  | Op.alloc n =>
    if n < SIZE_MOD then do
      let r ← myalloc y.st n
      match r.2 with
      | some p => pure ({ st := r.1, live := (p, n) :: y.live }, some p)
      | none => pure ({ st := r.1, live := y.live }, none)
    else throw Fault.illFormed
  | Op.free p =>
    if isLive y.live p then do
      let s ← myfree y.st (some p)
      pure ({ st := s, live := dropLive y.live p }, none)
    else throw Fault.illFormed
  | Op.realloc none n =>
    if n < SIZE_MOD then do
      let r ← myrealloc y.st none n
      match r.2 with
      | some p => pure ({ st := r.1, live := (p, n) :: y.live }, some p)
      | none => pure ({ st := r.1, live := y.live }, none)
    else throw Fault.illFormed
  | Op.realloc (some p) n =>
    if isLive y.live p ∧ n < SIZE_MOD then do
      let r ← myrealloc y.st (some p) n
      if n = 0 then pure ({ st := r.1, live := dropLive y.live p }, none)
      else match r.2 with
        | some q => pure ({ st := r.1, live := (q, n) :: dropLive y.live p }, some q)
        | none => pure ({ st := r.1, live := y.live }, none)
    else throw Fault.illFormed

/-- One well-formed operation, keeping only the system. -/
def step (y : Sys) (op : Op) : Except Fault Sys := do
  let r ← exec y op
  pure r.1

/-- The system right after `initializeHeap`, with no live address;
`use_first_fit` is set as `main` does from the command line. -/
def freshWith (first_fit : Int) : Sys :=
  { st := initializeHeap { start with use_first_fit := first_fit }, live := [] }

/-- The system right after `initializeHeap` with the default flags. -/
def fresh : Sys := freshWith 1

/-- Run a sequence of operations from a given system. -/
def runFrom (y : Sys) : List Op → Except Fault Sys
  | [] => pure y
  | op :: ops => do
    let y1 ← step y op
    runFrom y1 ops

/-- Run a sequence of operations on a freshly initialised heap. -/
def run (ops : List Op) : Except Fault Sys := runFrom fresh ops

/-- The address returned by `op` when it is executed after the well-formed
sequence `ops` on a fresh heap; `none` when it returns `NULL` or nothing, or
when the run has no defined result. -/
def returned (ops : List Op) (op : Op) : Option Nat :=
  match run ops with
  | Except.ok y =>
    match exec y op with
    | Except.ok r => r.2
    | Except.error _ => none
  | Except.error _ => none

/-- The headers the walk reads after the well-formed sequence `ops` on a fresh
heap (empty when the run has no defined result). -/
def visitedAfter (ops : List Op) : List Block :=
  match run ops with
  | Except.ok y => visited y.st
  | Except.error _ => []

/-- The `size` field of the block that `myalloc(n)` hands out when it is called
after the well-formed sequence `ops` on a fresh heap; `none` when it returns
`NULL` or when there is no defined result. -/
def handedOutSize (ops : List Op) (n : Nat) : Option Nat :=
  match run ops with
  | Except.ok y =>
    match myalloc y.st n with
    | Except.ok r => r.2.map (fun p => getSize r.1.heap (p - HDR))
    | Except.error _ => none
  | Except.error _ => none

/-! ## Specification-side notions -/

/-- The required block size for a request of `n` bytes, in the words of the
specification: `n + 8` rounded up to a multiple of 8. -/
def required (n : Nat) : Nat := (n + 8 + 7) / 8 * 8

/-- A block is free and large enough for `req` bytes. -/
def Fits (req : Nat) (b : Block) : Prop := b.allocated = 0 ∧ req ≤ b.size

instance decFits (req : Nat) (b : Block) : Decidable (Fits req b) :=
  inferInstanceAs (Decidable (b.allocated = 0 ∧ req ≤ b.size))

/-- Every byte at an offset divisible by 4 is divisible by 8: each 4-aligned
word of the heap then holds a `size` field that is a multiple of 8. -/
def WordAligned (m : Nat → Nat) : Prop := ∀ k, k % 4 = 0 → m k % 8 = 0

/-- Word alignment of the heap together with live addresses that are 4 modulo
8. -/
def SysAligned (y : Sys) : Prop :=
  WordAligned y.st.heap ∧ ∀ e ∈ y.live, e.1 % 8 = 4

/-- The heap of scenario S2 before its last request: three 32-byte blocks were
allocated and the middle one was freed. -/
def holeState : State :=
  match run [Op.alloc 24, Op.alloc 24, Op.alloc 24, Op.free 36] with
  | Except.ok y => y.st
  | Except.error _ => start

/-- The header walk of `holeState`. -/
def holeWalk : List Block :=
  [{ off := 0, size := 32, allocated := 1 }, { off := 32, size := 32, allocated := 0 },
   { off := 64, size := 32, allocated := 1 }, { off := 96, size := 3904, allocated := 0 }]

/-! ## Further notions used by the claims -/

/-- A heap on which one `myalloc(3992)` took the whole region (scenario S5). -/
def fullState : State :=
  match run [Op.alloc 3992] with
  | Except.ok y => y.st
  | Except.error _ => start

/-- The header of the address `p` lies inside the array `heap`, as it does for
every address that `myalloc` returns. -/
def InArray (p : Nat) : Prop := HDR ≤ p ∧ p ≤ INITIAL_HEAP_SIZE

instance decInArray (p : Nat) : Decidable (InArray p) :=
  inferInstanceAs (Decidable (HDR ≤ p ∧ p ≤ INITIAL_HEAP_SIZE))

/-- A run of `mysbrk` calls. -/
def sbrkAll (s : State) (deltas : List Int) : State := deltas.foldl mysbrk s

/-- The fault, if any, with which `myalloc(n)` ends when it is called after the
well-formed sequence `ops` on a fresh heap. -/
def allocFault (ops : List Op) (n : Nat) : Option Fault :=
  match run ops with
  | Except.ok y =>
    match myalloc y.st n with
    | Except.ok _ => none
    | Except.error e => some e
  | Except.error _ => none

/-- Tag consistency of the blocks of a walk: every block has room for its two
tags, and its footer word, at `off + size - HDR`, equals its header word. -/
def TagConsistent (s : State) (bs : List Block) : Prop :=
  ∀ b ∈ bs, 2 * HDR ≤ b.size ∧ hdrWord s.heap (b.off + b.size - HDR) = hdrWord s.heap b.off

instance decTagConsistent (s : State) (bs : List Block) : Decidable (TagConsistent s bs) :=
  inferInstanceAs (Decidable (∀ b ∈ bs,
    2 * HDR ≤ b.size ∧ hdrWord s.heap (b.off + b.size - HDR) = hdrWord s.heap b.off))

/-- Steps 3 and 4 of `free` in the words of the specification, on the list of
blocks: the block at offset `off` is marked free and, when its successor
exists and is free, the two are fused into one free block of the combined
size. -/
def fuseNext (off : Nat) : List Block → List Block
  | [] => []
  | b :: rest =>
    if b.off = off then
      match rest with
      | [] => [{ off := b.off, size := b.size, allocated := 0 }]
      | n :: rest' =>
        if n.allocated = 0 then
          { off := b.off, size := b.size + n.size, allocated := 0 } :: rest'
        else { off := b.off, size := b.size, allocated := 0 } :: n :: rest'
    else b :: fuseNext off rest

/-- Step 5 of `free` in the words of the specification, on the list of blocks:
when the predecessor of the block at offset `off` exists and is free, the two
are fused into one free block; the surviving header is the predecessor's. -/
def fusePrev (off : Nat) : List Block → List Block
  | [] => []
  | p :: rest =>
    match rest with
    | [] => [p]
    | b :: rest' =>
      if b.off = off then
        if p.allocated = 0 then
          { off := p.off, size := p.size + b.size, allocated := 0 } :: rest'
        else p :: b :: rest'
      else p :: fusePrev off rest

/-- The walk the specification expects after freeing the block at `off`. -/
def coalesced (off : Nat) (bs : List Block) : List Block :=
  fusePrev off (fuseNext off bs)

/-- The blocks of `bs` lie one after the other from offset `i` to offset `j`
and have positive sizes. -/
def Contig : Nat → List Block → Nat → Prop
  | i, [], j => i = j
  | i, b :: bs, j => b.off = i ∧ 0 < b.size ∧ Contig (i + b.size) bs j

/-- The words of `m'` that lie outside `[lo, hi)` are those of `m`. -/
def SameOutside (m m' : Nat → Nat) (lo hi : Nat) : Prop :=
  ∀ c, c + 4 ≤ lo ∨ hi ≤ c → hdrWord m' c = hdrWord m c

/-- What the forward step of `myfree` finds behind the block `[o, o + S)`:
`ns` is the size of the free successor, or 0 when the block is the last one or
its successor is allocated. -/
def NextInfo (m : Nat → Nat) (cur o S ns : Nat) : Prop :=
  (ns = 0 ∧ (cur ≤ o + S ∨ (o + S + 4 ≤ 4000 ∧ getAllocated m (o + S) ≠ 0))) ∨
  (4 ≤ ns ∧ o + S < cur ∧ getAllocated m (o + S) = 0 ∧ getSize m (o + S) = ns ∧
    o + S + ns ≤ 4000)

/-- What the backward step of `myfree` finds in front of the block at `o`:
`ps` is the size of the free predecessor, or 0 when the block is the first one
or its predecessor is allocated. -/
def PrevInfo (m : Nat → Nat) (o ps : Nat) : Prop :=
  (ps = 0 ∧ (o = 0 ∨ (4 ≤ o ∧ getAllocated m (o - 4) ≠ 0))) ∨
  (4 ≤ ps ∧ ps ≤ o ∧ getAllocated m (o - 4) = 0 ∧ getSize m (o - 4) = ps ∧
    getSize m (o - ps) = ps ∧ getAllocated m (o - ps) = 0)

/-! ## Words and bit-fields: reading after writing -/

theorem putWord_outside (m : Nat → Nat) (o w k : Nat) (hk : k < o ∨ o + 4 ≤ k) :
    putWord m o w k = m k := by
  unfold putWord
  split_ifs <;> omega

theorem hdrWord_putWord_same (m : Nat → Nat) (o w : Nat) :
    hdrWord (putWord m o w) o = w % 4294967296 := by
  simp [hdrWord, putWord]
  omega

theorem hdrWord_putWord_disjoint (m : Nat → Nat) (o w o' : Nat) (h : o + 4 ≤ o' ∨ o' + 4 ≤ o) :
    hdrWord (putWord m o w) o' = hdrWord m o' := by
  unfold hdrWord
  rw [putWord_outside, putWord_outside, putWord_outside, putWord_outside] <;> omega

theorem getSize_setSize_same (m : Nat → Nat) (o v : Nat) :
    getSize (setSize m o v) o = v % 536870912 := by
  unfold getSize setSize
  rw [hdrWord_putWord_same]
  omega

theorem getAllocated_setSize_same (m : Nat → Nat) (o v : Nat) :
    getAllocated (setSize m o v) o = getAllocated m o := by
  unfold getAllocated setSize
  rw [hdrWord_putWord_same]
  omega

theorem getSize_setAllocated_same (m : Nat → Nat) (o a : Nat) :
    getSize (setAllocated m o a) o = getSize m o := by
  unfold getSize setAllocated
  rw [hdrWord_putWord_same]
  omega

theorem getAllocated_setAllocated_same (m : Nat → Nat) (o a : Nat) :
    getAllocated (setAllocated m o a) o = a % 2 := by
  unfold getAllocated setAllocated
  rw [hdrWord_putWord_same]
  omega

theorem getSize_putWord_disjoint (m : Nat → Nat) (o w o' : Nat) (h : o + 4 ≤ o' ∨ o' + 4 ≤ o) :
    getSize (putWord m o w) o' = getSize m o' := by
  unfold getSize; rw [hdrWord_putWord_disjoint _ _ _ _ h]

theorem getAllocated_putWord_disjoint (m : Nat → Nat) (o w o' : Nat)
    (h : o + 4 ≤ o' ∨ o' + 4 ≤ o) :
    getAllocated (putWord m o w) o' = getAllocated m o' := by
  unfold getAllocated; rw [hdrWord_putWord_disjoint _ _ _ _ h]

theorem getSize_setSize_disjoint (m : Nat → Nat) (o v o' : Nat) (h : o + 4 ≤ o' ∨ o' + 4 ≤ o) :
    getSize (setSize m o v) o' = getSize m o' :=
  getSize_putWord_disjoint _ _ _ _ h

theorem getSize_setAllocated_disjoint (m : Nat → Nat) (o a o' : Nat)
    (h : o + 4 ≤ o' ∨ o' + 4 ≤ o) :
    getSize (setAllocated m o a) o' = getSize m o' :=
  getSize_putWord_disjoint _ _ _ _ h

theorem getAllocated_setSize_disjoint (m : Nat → Nat) (o v o' : Nat)
    (h : o + 4 ≤ o' ∨ o' + 4 ≤ o) :
    getAllocated (setSize m o v) o' = getAllocated m o' :=
  getAllocated_putWord_disjoint _ _ _ _ h

theorem getAllocated_setAllocated_disjoint (m : Nat → Nat) (o a o' : Nat)
    (h : o + 4 ≤ o' ∨ o' + 4 ≤ o) :
    getAllocated (setAllocated m o a) o' = getAllocated m o' :=
  getAllocated_putWord_disjoint _ _ _ _ h

/-! ## Word alignment of the stored sizes -/

theorem wa_hdrWord {m : Nat → Nat} (h : WordAligned m) {o : Nat} (ho : o % 4 = 0) :
    hdrWord m o % 8 = 0 := by
  have := h o ho
  unfold hdrWord
  omega

theorem wa_getSize {m : Nat → Nat} (h : WordAligned m) {o : Nat} (ho : o % 4 = 0) :
    getSize m o % 8 = 0 := by
  have := wa_hdrWord h ho
  unfold getSize
  omega

theorem wa_putWord {m : Nat → Nat} (h : WordAligned m) {o w : Nat} (ho : o % 4 = 0)
    (hw : w % 8 = 0) : WordAligned (putWord m o w) := by
  intro k hk
  unfold putWord
  split_ifs with h1 h2 h3 h4
  · omega
  · omega
  · omega
  · omega
  · exact h k hk

theorem wa_setSize {m : Nat → Nat} (h : WordAligned m) {o v : Nat} (ho : o % 4 = 0)
    (hv : v % 8 = 0) : WordAligned (setSize m o v) := by
  unfold setSize
  apply wa_putWord h ho
  omega

theorem wa_setAllocated {m : Nat → Nat} (h : WordAligned m) {o : Nat} (a : Nat)
    (ho : o % 4 = 0) : WordAligned (setAllocated m o a) := by
  unfold setAllocated
  apply wa_putWord h ho
  have := wa_hdrWord h ho
  omega

theorem wa_copyBytes {m : Nat → Nat} (h : WordAligned m) {dst src : Nat} (n : Nat)
    (hd : dst % 4 = 0) (hs : src % 4 = 0) : WordAligned (copyBytes m dst src n) := by
  intro k hk
  unfold copyBytes
  split_ifs with h1
  · apply h; omega
  · exact h k hk

theorem totalSize_mod8 (size : Nat) : totalSize size % 8 = 0 := by
  unfold totalSize
  simp only [SIZE_MOD, HDR]
  split_ifs <;> omega

/-! ## Results of the fallible primitives -/

theorem bind_eq_ok {ε α β : Type} {x : Except ε α} {f : α → Except ε β} {b : β} :
    (x >>= f) = Except.ok b ↔ ∃ a, x = Except.ok a ∧ f a = Except.ok b := by
  cases x <;> simp [bind, Except.bind]

theorem pure_eq_ok {ε α : Type} {a b : α} :
    (pure a : Except ε α) = Except.ok b ↔ a = b := by
  simp [pure, Except.pure]

theorem throw_eq_ok {ε α : Type} {e : ε} {b : α} :
    (throw e : Except ε α) = Except.ok b ↔ False := by
  simp [throw, throwThe, MonadExceptOf.throw]

theorem chk_eq_ok {o : Nat} {u : Unit} : chk o = Except.ok u ↔ o + 4 ≤ 4000 := by
  unfold chk
  simp only [HDR, INITIAL_HEAP_SIZE]
  split_ifs with h
  · simp [pure, Except.pure, h]
  · simp [throw, throwThe, MonadExceptOf.throw, h]

theorem ptrSub_eq_ok {a b r : Nat} : ptrSub a b = Except.ok r ↔ b ≤ a ∧ r = a - b := by
  unfold ptrSub
  split_ifs with h
  · simp only [pure, Except.pure, Except.ok.injEq, h, true_and]
    exact eq_comm
  · simp [throw, throwThe, MonadExceptOf.throw, h]

/-! ## The size fields stay multiples of 8 -/

theorem wa_place {m : Nat → Nat} {i : Nat} (hi : i % 8 = 0) (a4 : WordAligned m) :
    WordAligned (setSize (setAllocated (setAllocated m i 1)
        (i + getSize (setAllocated m i 1) i - 4) 1)
        (i + getSize (setAllocated m i 1) i - 4)
        (getSize (setAllocated (setAllocated m i 1)
          (i + getSize (setAllocated m i 1) i - 4) 1) i)) := by
  have a5 := wa_setAllocated a4 1 (o := i) (by omega)
  have hsz5 := wa_getSize a5 (o := i) (by omega)
  have a6 := wa_setAllocated a5 1 (o := i + getSize (setAllocated m i 1) i - 4) (by omega)
  exact wa_setSize a6 (by omega) (wa_getSize a6 (o := i) (by omega))

theorem place_aligned {s : State} {total i : Nat} {r : State × Option Nat}
    (hs : WordAligned s.heap) (hi : i % 8 = 0) (ht : total % 8 = 0)
    (h : myalloc_place s total i = Except.ok r) :
    WordAligned r.1.heap ∧ r.2 = some (i + 4) ∧
      r.1.current_heap_size = s.current_heap_size := by
  have hsz := wa_getSize hs (o := i) (by omega)
  simp only [myalloc_place] at h
  split_ifs at h with h3
  · simp only [bind_eq_ok, chk_eq_ok, pure_eq_ok, ptrSub_eq_ok, HDR] at h
    obtain ⟨s1, ⟨_, _, nf, ⟨_, rfl⟩, _, _, hs1⟩, ft, ⟨_, rfl⟩, _, _, rfl⟩ := h
    simp only [HDR] at h3
    have a1 := wa_setSize hs (o := i) (v := total) (by omega) ht
    have a2 := wa_setSize a1 (o := i + total) (v := getSize s.heap i - total)
      (by omega) (by omega)
    have a3 := wa_setAllocated a2 0 (o := i + total) (by omega)
    have a4 : WordAligned s1.heap := by
      rw [← hs1]
      exact wa_putWord a3 (by omega) (wa_hdrWord a3 (by omega))
    have hc : s1.current_heap_size = s.current_heap_size := by rw [← hs1]
    exact ⟨wa_place hi a4, rfl, hc⟩
  · simp only [bind_eq_ok, chk_eq_ok, pure_eq_ok, ptrSub_eq_ok, HDR] at h
    obtain ⟨s1, rfl, ft, ⟨_, rfl⟩, _, _, rfl⟩ := h
    exact ⟨wa_place hi hs, rfl, rfl⟩

theorem scan_aligned (total : Nat) (ht : total % 8 = 0) :
    ∀ (fuel i : Nat) (s : State) (r : State × Option Nat), WordAligned s.heap → i % 8 = 0 →
      myalloc_scan s total fuel i = Except.ok r →
      WordAligned r.1.heap ∧ (∀ p, r.2 = some p → p % 8 = 4) ∧
        r.1.current_heap_size = s.current_heap_size := by
  intro fuel
  induction fuel with
  | zero =>
    intro i s r _ _ h
    simp [myalloc_scan, throw, throwThe, MonadExceptOf.throw] at h
  | succ fuel ih =>
    intro i s r hs hi h
    simp only [myalloc_scan] at h
    have hsz := wa_getSize hs (o := i) (by omega)
    split_ifs at h with h1 h2
    · simp only [bind_eq_ok, chk_eq_ok] at h
      obtain ⟨_, _, h⟩ := h
      obtain ⟨w, e, c⟩ := place_aligned hs hi ht h
      refine ⟨w, ?_, c⟩
      intro p hp
      rw [e] at hp
      simp only [Option.some.injEq] at hp
      omega
    · simp only [bind_eq_ok, chk_eq_ok] at h
      obtain ⟨_, _, h⟩ := h
      exact ih _ s r hs (by omega) h
    · simp only [pure_eq_ok] at h
      subst h
      exact ⟨hs, by simp, rfl⟩

theorem myalloc_aligned {s : State} {size : Nat} {r : State × Option Nat}
    (hs : WordAligned s.heap) (h : myalloc s size = Except.ok r) :
    WordAligned r.1.heap ∧ (∀ p, r.2 = some p → p % 8 = 4) ∧
      r.1.current_heap_size = s.current_heap_size :=
  scan_aligned _ (totalSize_mod8 size) _ 0 s r hs (by omega) h

theorem next_aligned {cur : Nat} {m : Nat → Nat} {header footer bsz : Nat}
    {r : (Nat → Nat) × Nat} (hm : WordAligned m) (hh : header % 4 = 0) (hf : footer % 4 = 0)
    (hb : bsz % 8 = 0) (h : myfree_next cur m header footer bsz = Except.ok r) :
    WordAligned r.1 ∧ r.2 % 8 = 0 := by
  simp only [myfree_next, HDR] at h
  have hn := wa_getSize hm (o := footer + 4) (by omega)
  split_ifs at h with h1 h2
  · simp only [bind_eq_ok, chk_eq_ok, pure_eq_ok, ptrSub_eq_ok] at h
    obtain ⟨_, _, nf, ⟨_, rfl⟩, _, _, rfl⟩ := h
    have a1 := wa_setSize hm (o := header) (v := bsz + getSize m (footer + 4)) hh (by omega)
    exact ⟨wa_setSize a1 (by omega) (by omega), by simp only; omega⟩
  · simp only [bind_eq_ok, chk_eq_ok, pure_eq_ok] at h
    obtain ⟨_, _, rfl⟩ := h
    exact ⟨hm, hb⟩
  · simp only [pure_eq_ok] at h
    subst h
    exact ⟨hm, hb⟩

theorem prev_aligned {m m' : Nat → Nat} {header footer bsz : Nat}
    (hm : WordAligned m) (hh : header % 4 = 0) (hf : footer % 4 = 0)
    (hb : bsz % 8 = 0) (h : myfree_prev m header footer bsz = Except.ok m') :
    WordAligned m' := by
  simp only [myfree_prev, HDR] at h
  split_ifs at h with h1
  · simp only [bind_eq_ok, chk_eq_ok, ptrSub_eq_ok] at h
    obtain ⟨pf, ⟨_, rfl⟩, _, _, h⟩ := h
    have hn := wa_getSize hm (o := header - 4) (by omega)
    split_ifs at h with h2
    · simp only [bind_eq_ok, chk_eq_ok, pure_eq_ok, ptrSub_eq_ok] at h
      obtain ⟨ph, ⟨_, rfl⟩, _, _, rfl⟩ := h
      have hq := wa_getSize hm (o := header - getSize m (header - 4)) (by omega)
      have a1 := wa_setSize hm (o := header - getSize m (header - 4))
        (v := getSize m (header - getSize m (header - 4)) + bsz) (by omega) (by omega)
      exact wa_setSize a1 hf (by omega)
    · simp only [pure_eq_ok] at h
      subst h
      exact hm
  · simp only [pure_eq_ok] at h
    subst h
    exact hm

theorem myfree_aligned {s s' : State} {p : Nat} (h : myfree s (some p) = Except.ok s')
    (hs : WordAligned s.heap) (hp : p % 8 = 4) :
    WordAligned s'.heap ∧ s'.current_heap_size = s.current_heap_size := by
  simp only [myfree, bind_eq_ok, chk_eq_ok, pure_eq_ok, ptrSub_eq_ok, HDR] at h
  obtain ⟨hd, ⟨_, rfl⟩, _, _, ft, ⟨_, rfl⟩, _, _, r, hfw, m', hbw, rfl⟩ := h
  have a1 := wa_setAllocated hs 0 (o := p - 4) (by omega)
  have hz := wa_getSize a1 (o := p - 4) (by omega)
  have a2 := wa_setAllocated a1 0
    (o := p - 4 + getSize (setAllocated s.heap (p - 4) 0) (p - 4) - 4) (by omega)
  obtain ⟨a3, hb⟩ := next_aligned a2 (by omega) (by omega) hz hfw
  exact ⟨prev_aligned a3 (by omega) (by omega) hb hbw, rfl⟩

theorem myrealloc_aligned {s : State} {ptr : Option Nat} {size : Nat} {r : State × Option Nat}
    (hs : WordAligned s.heap) (hp : ∀ p, ptr = some p → p % 8 = 4)
    (h : myrealloc s ptr size = Except.ok r) :
    WordAligned r.1.heap ∧ (∀ q, r.2 = some q → q % 8 = 4) ∧
      r.1.current_heap_size = s.current_heap_size := by
  cases ptr with
  | none => exact myalloc_aligned hs h
  | some p =>
    have hp4 := hp p rfl
    simp only [myrealloc, bind_eq_ok, chk_eq_ok, ptrSub_eq_ok, HDR] at h
    obtain ⟨hd, ⟨_, rfl⟩, _, _, h⟩ := h
    by_cases h0 : size = 0
    · simp only [h0, if_true, bind_eq_ok, pure_eq_ok] at h
      obtain ⟨s1, hf, rfl⟩ := h
      obtain ⟨w, c⟩ := myfree_aligned hf hs hp4
      exact ⟨w, by simp, c⟩
    · simp only [h0, if_false, bind_eq_ok] at h
      obtain ⟨r1, ha, h⟩ := h
      obtain ⟨w1, e1, c1⟩ := myalloc_aligned hs ha
      split at h
      · rename_i np hnp
        have hq := e1 np hnp
        by_cases hb : np + (if (getSize s.heap (p - 4) + SIZE_MOD - 2 * 4) % SIZE_MOD < size
              then (getSize s.heap (p - 4) + SIZE_MOD - 2 * 4) % SIZE_MOD else size)
              ≤ INITIAL_HEAP_SIZE ∧
            p + (if (getSize s.heap (p - 4) + SIZE_MOD - 2 * 4) % SIZE_MOD < size
              then (getSize s.heap (p - 4) + SIZE_MOD - 2 * 4) % SIZE_MOD else size)
              ≤ INITIAL_HEAP_SIZE
        · rw [if_pos hb] at h
          split_ifs at h
          all_goals first
            | (simp only [throw_eq_ok] at h)
            | (simp only [bind_eq_ok, pure_eq_ok] at h
               obtain ⟨s3, hf, rfl⟩ := h
               obtain ⟨w3, c3⟩ := myfree_aligned hf (wa_copyBytes w1 _ (by omega) (by omega)) hp4
               refine ⟨w3, ?_, c3.trans c1⟩
               intro q hq'
               simp only [Option.some.injEq] at hq'
               omega)
        · rw [if_neg hb] at h
          simp only [throw_eq_ok] at h
      · simp only [pure_eq_ok] at h
        subst h
        rename_i hnone
        exact ⟨w1, by simp [hnone], c1⟩

theorem isLive_mod {live : List (Nat × Nat)} {p : Nat} (hl : ∀ e ∈ live, e.1 % 8 = 4)
    (h : isLive live p = true) : p % 8 = 4 := by
  unfold isLive at h
  rw [List.any_eq_true] at h
  obtain ⟨e, he, hp⟩ := h
  have := hl e he
  simp only [beq_iff_eq] at hp
  omega

theorem dropLive_mod {live : List (Nat × Nat)} (p : Nat) (hl : ∀ e ∈ live, e.1 % 8 = 4) :
    ∀ e ∈ dropLive live p, e.1 % 8 = 4 := by
  intro e he
  unfold dropLive at he
  exact hl e (List.mem_filter.mp he).1

theorem cons_mod {live : List (Nat × Nat)} {q n : Nat} (hq : q % 8 = 4)
    (hl : ∀ e ∈ live, e.1 % 8 = 4) : ∀ e ∈ (q, n) :: live, e.1 % 8 = 4 := by
  intro e he
  rcases List.mem_cons.mp he with rfl | h
  · exact hq
  · exact hl e h

theorem fresh_aligned (f : Int) : SysAligned (freshWith f) := by
  refine ⟨?_, by simp [freshWith]⟩
  have z : WordAligned (fun _ : Nat => 0) := fun _ _ => rfl
  have a1 := wa_setSize z (o := 0) (v := INITIAL_HEAP_SIZE) (by omega) (by decide)
  have a2 := wa_setAllocated a1 0 (o := 0) (by omega)
  exact wa_putWord a2 (by decide) (wa_hdrWord a2 (by omega))

theorem exec_aligned {y : Sys} {op : Op} {r : Sys × Option Nat} (hy : SysAligned y)
    (h : exec y op = Except.ok r) : SysAligned r.1 ∧ ∀ p, r.2 = some p → p % 8 = 4 := by
  obtain ⟨hw, hl⟩ := hy
  cases op with
  | alloc n =>
    simp only [exec] at h
    split_ifs at h with hn
    · simp only [bind_eq_ok] at h
      obtain ⟨r1, ha, h⟩ := h
      obtain ⟨w1, e1, _⟩ := myalloc_aligned hw ha
      split at h
      · rename_i q hq
        simp only [pure_eq_ok] at h
        subst h
        exact ⟨⟨w1, cons_mod (e1 q hq) hl⟩, fun p hp => by
          simp only [Option.some.injEq] at hp; subst hp; exact e1 _ hq⟩
      · simp only [pure_eq_ok] at h
        subst h
        exact ⟨⟨w1, hl⟩, fun p hp => by simp at hp⟩
  | free p =>
    simp only [exec] at h
    split_ifs at h with hp
    · simp only [bind_eq_ok, pure_eq_ok] at h
      obtain ⟨s1, hf, rfl⟩ := h
      obtain ⟨w1, _⟩ := myfree_aligned hf hw (isLive_mod hl hp)
      exact ⟨⟨w1, dropLive_mod p hl⟩, fun p hp => by simp at hp⟩
  | realloc ptr n =>
    cases ptr with
    | none =>
      simp only [exec] at h
      split_ifs at h with hn
      · simp only [bind_eq_ok] at h
        obtain ⟨r1, ha, h⟩ := h
        obtain ⟨w1, e1, _⟩ := myrealloc_aligned hw (by simp) ha
        split at h
        · rename_i q hq
          simp only [pure_eq_ok] at h
          subst h
          exact ⟨⟨w1, cons_mod (e1 q hq) hl⟩, fun p hp => by
            simp only [Option.some.injEq] at hp; subst hp; exact e1 _ hq⟩
        · simp only [pure_eq_ok] at h
          subst h
          exact ⟨⟨w1, hl⟩, fun p hp => by simp at hp⟩
    | some p =>
      simp only [exec] at h
      split_ifs at h with hp hn
      · simp only [bind_eq_ok, pure_eq_ok] at h
        obtain ⟨r1, ha, rfl⟩ := h
        obtain ⟨w1, e1, _⟩ := myrealloc_aligned hw
          (fun q hq => by simp only [Option.some.injEq] at hq; subst hq; exact isLive_mod hl hp.1) ha
        exact ⟨⟨w1, dropLive_mod p hl⟩, fun p hp => by simp at hp⟩
      · simp only [bind_eq_ok] at h
        obtain ⟨r1, ha, h⟩ := h
        obtain ⟨w1, e1, _⟩ := myrealloc_aligned hw
          (fun q hq => by simp only [Option.some.injEq] at hq; subst hq; exact isLive_mod hl hp.1) ha
        split at h
        · rename_i q hq
          simp only [pure_eq_ok] at h
          subst h
          exact ⟨⟨w1, cons_mod (e1 q hq) (dropLive_mod p hl)⟩, fun p hp => by
            simp only [Option.some.injEq] at hp; subst hp; exact e1 _ hq⟩
        · simp only [pure_eq_ok] at h
          subst h
          exact ⟨⟨w1, hl⟩, fun p hp => by simp at hp⟩

theorem runFrom_aligned : ∀ (ops : List Op) (y y' : Sys), SysAligned y →
    runFrom y ops = Except.ok y' → SysAligned y' := by
  intro ops
  induction ops with
  | nil =>
    intro y y' hy h
    simp only [runFrom, pure_eq_ok] at h
    subst h
    exact hy
  | cons op ops ih =>
    intro y y' hy h
    simp only [runFrom, step, bind_eq_ok, pure_eq_ok] at h
    obtain ⟨y1, ⟨r, he, rfl⟩, h⟩ := h
    exact ih _ _ (exec_aligned hy he).1 h

theorem run_aligned {ops : List Op} {y : Sys} (h : run ops = Except.ok y) : SysAligned y :=
  runFrom_aligned ops _ _ (fresh_aligned 1) h

theorem visitedFrom_mod8 (s : State) (hs : WordAligned s.heap) :
    ∀ (fuel i : Nat), i % 8 = 0 → ∀ b ∈ visitedFrom s fuel i, b.size % 8 = 0 ∧ b.off % 8 = 0 := by
  intro fuel
  induction fuel with
  | zero => intro i _ b hb; simp [visitedFrom] at hb
  | succ fuel ih =>
    intro i hi b hb
    have hsz := wa_getSize hs (o := i) (by omega)
    simp only [visitedFrom] at hb
    split_ifs at hb with h1 h2
    · simp only [List.mem_singleton] at hb
      subst hb
      exact ⟨hsz, hi⟩
    · rcases List.mem_cons.mp hb with rfl | hb
      · exact ⟨hsz, hi⟩
      · exact ih _ (by omega) b hb
    · simp at hb

/-! ## First-fit placement -/

theorem chk_ok {o : Nat} (h : o + 4 ≤ 4000) : chk o = Except.ok () :=
  chk_eq_ok.mpr h

theorem ptrSub_ok {a b : Nat} (h : b ≤ a) : ptrSub a b = Except.ok (a - b) :=
  ptrSub_eq_ok.mpr ⟨h, rfl⟩

theorem totalSize_eq_required {n : Nat} (hn : n ≤ 400000) : totalSize n = required n := by
  unfold totalSize required
  simp only [SIZE_MOD, HDR]
  split_ifs <;> omega

theorem getSize_lt (m : Nat → Nat) (o : Nat) : getSize m o < 536870912 := by
  unfold getSize
  omega

/-- Placement at a chosen block that lies inside the array succeeds, returns
its payload and leaves the header marked allocated. -/
theorem place_ok {s : State} {total i : Nat} (h8 : 8 ≤ total) (hfit : total ≤ getSize s.heap i)
    (hin : i + getSize s.heap i ≤ 4000) :
    ∃ s', myalloc_place s total i = Except.ok (s', some (i + 4)) ∧
      getAllocated s'.heap i = 1 := by
  have hlt := getSize_lt s.heap i
  simp only [myalloc_place, HDR]
  split_ifs with h3
  · have e1 : getSize (setAllocated (putWord (setAllocated (setSize (setSize s.heap i total)
        (i + total) (getSize s.heap i - total)) (i + total) 0)
        (i + total + (getSize s.heap i - total) - 4)
        (hdrWord (setAllocated (setSize (setSize s.heap i total) (i + total)
          (getSize s.heap i - total)) (i + total) 0) (i + total))) i 1) i = total := by
      rw [getSize_setAllocated_same, getSize_putWord_disjoint _ _ _ _ (by omega),
        getSize_setAllocated_disjoint _ _ _ _ (by omega),
        getSize_setSize_disjoint _ _ _ _ (by omega), getSize_setSize_same]
      omega
    simp only [chk_ok (show i + total + 4 ≤ 4000 by omega),
      ptrSub_ok (show 4 ≤ i + total + (getSize s.heap i - total) by omega),
      chk_ok (show i + total + (getSize s.heap i - total) - 4 + 4 ≤ 4000 by omega),
      bind, Except.bind, pure, Except.pure, e1,
      ptrSub_ok (show 4 ≤ i + total by omega), chk_ok (show i + total - 4 + 4 ≤ 4000 by omega)]
    refine ⟨_, rfl, ?_⟩
    simp only
    rw [getAllocated_setSize_disjoint _ _ _ _ (by omega),
      getAllocated_setAllocated_disjoint _ _ _ _ (by omega), getAllocated_setAllocated_same]
  · have e1 : getSize (setAllocated s.heap i 1) i = getSize s.heap i :=
      getSize_setAllocated_same _ _ _
    simp only [bind, Except.bind, pure, Except.pure, e1,
      ptrSub_ok (show 4 ≤ i + getSize s.heap i by omega),
      chk_ok (show i + getSize s.heap i - 4 + 4 ≤ 4000 by omega)]
    refine ⟨_, rfl, ?_⟩
    simp only
    rw [getAllocated_setSize_disjoint _ _ _ _ (by omega),
      getAllocated_setAllocated_disjoint _ _ _ _ (by omega), getAllocated_setAllocated_same]

/-- What the walk records about each block, and where the blocks lie. -/
theorem walkFrom_facts (s : State) : ∀ (fuel i : Nat) (bs : List Block),
    walkFrom s fuel i = some bs →
    (∀ b ∈ bs, i ≤ b.off ∧ b.size = getSize s.heap b.off ∧
      b.allocated = getAllocated s.heap b.off ∧ b.off + b.size ≤ 4000 ∧ 0 < b.size) ∧
    bs.Pairwise (fun a c => a.off < c.off) := by
  intro fuel
  induction fuel with
  | zero => intro i bs h; simp [walkFrom] at h
  | succ fuel ih =>
    intro i bs h
    simp only [walkFrom, HDR, INITIAL_HEAP_SIZE] at h
    split_ifs at h with h1 h2 h3
    · simp only [Option.map_eq_some'] at h
      obtain ⟨tl, htl, rfl⟩ := h
      obtain ⟨f1, f2⟩ := ih _ _ htl
      constructor
      · intro b hb
        rcases List.mem_cons.mp hb with rfl | hb
        · exact ⟨le_refl _, rfl, rfl, h2.2, Nat.pos_of_ne_zero h3⟩
        · obtain ⟨g1, g2⟩ := f1 b hb
          exact ⟨by omega, g2⟩
      · refine List.pairwise_cons.mpr ⟨?_, f2⟩
        intro c hc
        have := (f1 c hc).1
        have := Nat.pos_of_ne_zero h3
        simp only
        omega
    · simp only [Option.some.injEq] at h
      subst h
      exact ⟨by simp, List.Pairwise.nil⟩

/-- The scan of `myalloc` over a heap whose walk is `bs` places the request at
the first block of `bs` that fits, and returns `NULL` with the heap untouched
when there is none. -/
theorem scan_find (s : State) (total : Nat) : ∀ (fuel i : Nat) (bs : List Block),
    walkFrom s fuel i = some bs →
    myalloc_scan s total fuel i =
      match bs.find? (fun b => decide (Fits total b)) with
      | none => Except.ok (s, none)
      | some b => myalloc_place s total b.off := by
  intro fuel
  induction fuel with
  | zero => intro i bs h; simp [walkFrom] at h
  | succ fuel ih =>
    intro i bs h
    simp only [walkFrom, HDR, INITIAL_HEAP_SIZE] at h
    simp only [myalloc_scan]
    split_ifs at h with h1 h2 h3
    · simp only [Option.map_eq_some'] at h
      obtain ⟨tl, htl, rfl⟩ := h
      rw [if_pos h1, chk_ok h2.1]
      simp only [bind, Except.bind]
      by_cases hc : getAllocated s.heap i = 0 ∧ getSize s.heap i ≥ total
      · rw [if_pos hc]
        have : decide (Fits total (Block.mk i (getSize s.heap i) (getAllocated s.heap i)))
            = true := by
          simp only [Fits, decide_eq_true_eq]
          exact hc
        simp only [List.find?_cons, this]
      · rw [if_neg hc]
        have : decide (Fits total (Block.mk i (getSize s.heap i) (getAllocated s.heap i)))
            = false := by
          simp only [Fits, decide_eq_false_iff_not]
          exact hc
        simp only [List.find?_cons, this]
        exact ih _ _ htl
    · simp only [Option.some.injEq] at h
      subst h
      rw [if_neg h1]
      rfl

/-- In a list sorted by offset, the block that fits and has no fitting block
at a lower offset is the first one that fits. -/
theorem find_lowest (req : Nat) : ∀ (bs : List Block), bs.Pairwise (fun a c => a.off < c.off) →
    ∀ b ∈ bs, Fits req b → (∀ c ∈ bs, c.off < b.off → ¬ Fits req c) →
    bs.find? (fun b => decide (Fits req b)) = some b := by
  intro bs
  induction bs with
  | nil => intro _ b hb; simp at hb
  | cons a tl ih =>
    intro hp b hb hf hmin
    obtain ⟨hp1, hp2⟩ := List.pairwise_cons.mp hp
    by_cases ha : Fits req a
    · have : a = b := by
        rcases List.mem_cons.mp hb with rfl | hb'
        · rfl
        · exact absurd ha (hmin a (List.mem_cons_self _ _) (hp1 b hb'))
      subst this
      simp [List.find?_cons, ha]
    · have hb' : b ∈ tl := by
        rcases List.mem_cons.mp hb with rfl | hb'
        · exact absurd hf ha
        · exact hb'
      simp only [List.find?_cons, ha, decide_False]
      exact ih hp2 b hb' hf (fun c hc => hmin c (List.mem_cons_of_mem _ hc))

/-! ## The smallest block that is handed out -/

theorem totalSize_ge8 {n : Nat} (hn : n + 16 ≤ SIZE_MOD) : 8 ≤ totalSize n := by
  unfold totalSize
  simp only [SIZE_MOD, HDR] at *
  split_ifs <;> omega

/-- The footer writes that end a placement leave the `size` field of the header
as it was, provided the block has at least 8 bytes. -/
theorem getSize_place_tail (m : Nat → Nat) (i : Nat) (h8 : 8 ≤ getSize m i) :
    getSize (setSize (setAllocated (setAllocated m i 1)
        (i + getSize (setAllocated m i 1) i - 4) 1)
        (i + getSize (setAllocated m i 1) i - 4)
        (getSize (setAllocated (setAllocated m i 1)
          (i + getSize (setAllocated m i 1) i - 4) 1) i)) i = getSize m i := by
  have e : getSize (setAllocated m i 1) i = getSize m i := getSize_setAllocated_same _ _ _
  rw [e, getSize_setSize_disjoint _ _ _ _ (by omega),
    getSize_setAllocated_disjoint _ _ _ _ (by omega), e]

/-- The block that a successful placement hands out has at least 8 bytes. -/
theorem place_size {s : State} {total i : Nat} {r : State × Option Nat} (h8 : 8 ≤ total)
    (hfit : total ≤ getSize s.heap i) (h : myalloc_place s total i = Except.ok r) :
    8 ≤ getSize r.1.heap i ∧ r.2 = some (i + 4) := by
  have hlt := getSize_lt s.heap i
  simp only [myalloc_place] at h
  split_ifs at h with h3
  · simp only [bind_eq_ok, chk_eq_ok, pure_eq_ok, ptrSub_eq_ok, HDR] at h
    obtain ⟨s1, ⟨_, _, nf, ⟨_, rfl⟩, _, _, hs1⟩, ft, ⟨_, rfl⟩, _, _, rfl⟩ := h
    simp only [HDR] at h3
    have e1 : getSize s1.heap i = total := by
      rw [← hs1]
      simp only
      rw [getSize_putWord_disjoint _ _ _ _ (by omega),
        getSize_setAllocated_disjoint _ _ _ _ (by omega),
        getSize_setSize_disjoint _ _ _ _ (by omega), getSize_setSize_same]
      omega
    refine ⟨?_, rfl⟩
    simp only
    rw [getSize_place_tail _ _ (by omega), e1]
    exact h8
  · simp only [bind_eq_ok, chk_eq_ok, pure_eq_ok, ptrSub_eq_ok, HDR] at h
    obtain ⟨s1, rfl, ft, ⟨_, rfl⟩, _, _, rfl⟩ := h
    refine ⟨?_, rfl⟩
    simp only
    rw [getSize_place_tail _ _ (by omega)]
    omega

theorem scan_size (s : State) (total : Nat) (h8 : 8 ≤ total) :
    ∀ (fuel i : Nat) (r : State × Option Nat), myalloc_scan s total fuel i = Except.ok r →
      ∀ p, r.2 = some p → 8 ≤ getSize r.1.heap (p - 4) := by
  intro fuel
  induction fuel with
  | zero =>
    intro i r h
    simp [myalloc_scan, throw, throwThe, MonadExceptOf.throw] at h
  | succ fuel ih =>
    intro i r h p hp
    simp only [myalloc_scan] at h
    split_ifs at h with h1 h2
    · simp only [bind_eq_ok, chk_eq_ok] at h
      obtain ⟨_, _, h⟩ := h
      obtain ⟨hsz, e⟩ := place_size h8 h2.2 h
      rw [e] at hp
      simp only [Option.some.injEq] at hp
      subst hp
      simpa using hsz
    · simp only [bind_eq_ok, chk_eq_ok] at h
      obtain ⟨_, _, h⟩ := h
      exact ih _ r h p hp
    · simp only [pure_eq_ok] at h
      subst h
      simp at hp

/-! ## The claims -/

set_option maxRecDepth 100000

/-- C1 (tag consistency, violated by the code): after `a 8; a 8`, freeing the
first block and then the second merges the second with both neighbours.  The
walk then has the single free block of 4000 bytes, whose header word is 4000
while the footer word at offset 3996 is still 3984. -/
theorem tag_mismatch_after_double_coalesce :
    (run [Op.alloc 8, Op.alloc 8, Op.free 4, Op.free 20]).toOption.map
      (fun y => (headerWalk y.st, hdrWord y.st.heap 0, hdrWord y.st.heap 3996,
        (headerWalk y.st).map (fun bs => bs.all (footerMatches y.st))))
    = some (some [{ off := 0, size := 4000, allocated := 0 }], 4000, 3984, some false) := by
  decide

/-- C2 (partition, violated by the code): after the eleven operations below the
walk reads size 16 at offset 0, size 3968 at offset 16 and then size 0 at
offset 3984, inside the region of 4000 bytes, so it never reaches the region
end and the block sizes do not sum to `current_heap_size`. -/
theorem partition_broken_after_free :
    (run [Op.alloc 8, Op.alloc 8, Op.alloc 8, Op.alloc 8, Op.alloc 8, Op.free 4, Op.free 36,
          Op.free 20, Op.free 52, Op.alloc 8, Op.free 68]).toOption.map
      (fun y => (headerWalk y.st, visited y.st, y.st.current_heap_size))
    = some (none, [{ off := 0, size := 16, allocated := 1 },
         { off := 16, size := 3968, allocated := 0 },
         { off := 3984, size := 0, allocated := 0 }], 4000) := by
  decide

/-- C3 (non-overlap, violated by the code): after the sixteen operations below
the live addresses 20 (requested 24 bytes) and 36 (requested 8 bytes) are both
live, and their byte ranges `[20, 44)` and `[36, 44)` intersect. -/
theorem live_ranges_overlap :
    (run [Op.alloc 8, Op.alloc 8, Op.alloc 8, Op.alloc 8, Op.alloc 8, Op.alloc 8, Op.free 4,
          Op.free 36, Op.free 20, Op.free 52, Op.alloc 8, Op.alloc 8, Op.alloc 8, Op.free 68,
          Op.free 20, Op.alloc 24]).toOption.map
      (fun y => (y.live, disjointRanges (20, 24) (36, 8)))
    = some ([(20, 24), (36, 8), (4, 8), (84, 8)], false) := by
  decide

/-- C4 (realloc copy, violated by the code): in the heap reached by the nine
operations below, address 68 is live with a 32-byte block (24 payload bytes).
`myrealloc(68, 24)` returns address 4, yet the byte at offset 12 of the new
payload (heap offset 16) is 96 while the byte at offset 12 of the old payload
(heap offset 80) was 0 before the call. -/
theorem realloc_copy_clobbered :
    (run [Op.alloc 8, Op.alloc 8, Op.alloc 8, Op.alloc 8, Op.alloc 24, Op.free 4, Op.free 36,
          Op.free 20, Op.free 52]).toOption.bind
      (fun y => (myrealloc y.st (some 68) 24).toOption.map
        (fun r => (isLive y.live 68, getSize y.st.heap 64, r.2, y.st.heap 80, r.1.heap 16)))
    = some (true, 32, some 4, 0, 96) := by
  decide

/-- C5 (coalesce completeness, violated by the code): four successful
allocations followed by freeing every returned address once leave a walk of
two free blocks, 48 and 3952 bytes, not one free block of 4000 bytes. -/
theorem free_all_leaves_two_blocks :
    (run [Op.alloc 8, Op.alloc 8, Op.alloc 8, Op.alloc 8, Op.free 4, Op.free 36,
          Op.free 20, Op.free 52]).toOption.map
      (fun y => (headerWalk y.st, y.live))
    = some (some [{ off := 0, size := 48, allocated := 0 },
         { off := 48, size := 3952, allocated := 0 }], []) := by
  decide

/-- C6 (no adjacent free blocks, violated by the code): right after the last
`myfree` of the sequence below, the first two blocks of the walk, at offsets 0
and 96, are both free. -/
theorem adjacent_free_blocks_after_free :
    (run [Op.alloc 24, Op.alloc 24, Op.alloc 24, Op.alloc 24, Op.alloc 24, Op.free 4,
          Op.free 68, Op.free 36, Op.free 100]).toOption.map
      (fun y => (headerWalk y.st, (headerWalk y.st).map noAdjacentFree))
    = some (some [{ off := 0, size := 96, allocated := 0 },
         { off := 96, size := 32, allocated := 0 },
         { off := 128, size := 32, allocated := 1 },
         { off := 160, size := 3840, allocated := 0 }], some false) := by
  decide

/-- C7 as stated fails: the very first `myalloc(24)` on a fresh heap returns
offset 4, which is not divisible by 8. -/
theorem first_address_not_divisible_by_8 :
    returned [] (Op.alloc 24) = some 4 ∧ ¬ (4 % 8 = 0) := by
  decide

/-- C7 (amended): after any well-formed sequence of operations on a fresh heap,
every address that `myalloc` or `myrealloc` returns is 4 modulo 8: the block
header sits at a multiple of 8 and the payload starts one 4-byte header
later. -/
theorem returned_address_mod8 (ops : List Op) (op : Op) (p : Nat)
    (h : returned ops op = some p) : p % 8 = 4 := by
  unfold returned at h
  split at h
  · rename_i y hy
    split at h
    · rename_i r hr
      exact (exec_aligned (run_aligned hy) hr).2 p h
    · simp at h
  · simp at h

/-- Witness for C7 (amended): after `a 8`, `myalloc(24)` returns offset 20. -/
theorem returned_address_mod8_witness :
    returned [Op.alloc 8] (Op.alloc 24) = some 20 ∧ 20 % 8 = 4 :=
  ⟨by decide, returned_address_mod8 [Op.alloc 8] (Op.alloc 24) 20 (by decide)⟩

/-- C8: on a heap whose header walk partitions the region into blocks of
positive size, `myalloc(n)` for `n ≤ 400000` returns `NULL` exactly when no
free block has size at least `required n`; otherwise it returns `b.off + 4`
for the lowest-offset free block `b` of size at least `required n`, and the
header of `b` is marked allocated afterwards. -/
theorem first_fit_placement (s : State) (bs : List Block) (n : Nat)
    (hw : Partitioned s bs) (hn : n ≤ 400000) :
    ((myalloc s n).toOption.map Prod.snd = some none ↔ ∀ b ∈ bs, ¬ Fits (required n) b) ∧
    (∀ b ∈ bs, Fits (required n) b → (∀ c ∈ bs, c.off < b.off → ¬ Fits (required n) c) →
      (myalloc s n).toOption.map (fun r => (r.2, getAllocated r.1.heap b.off))
        = some (some (b.off + HDR), 1)) := by
  obtain ⟨hwalk, _⟩ := hw
  obtain ⟨facts, sorted⟩ := walkFrom_facts s _ _ _ hwalk
  have hscan := scan_find s (required n) _ _ _ hwalk
  have h8 : 8 ≤ required n := by unfold required; omega
  have key : ∀ b ∈ bs, Fits (required n) b →
      ∃ s', myalloc_place s (required n) b.off = Except.ok (s', some (b.off + 4)) ∧
        getAllocated s'.heap b.off = 1 := by
    intro b hb hf
    obtain ⟨_, e1, _, e3, _⟩ := facts b hb
    exact place_ok h8 (by rw [← e1]; exact hf.2) (by rw [← e1]; exact e3)
  unfold myalloc
  rw [totalSize_eq_required hn, hscan]
  constructor
  · constructor
    · intro h b hb hf
      cases hfind : bs.find? (fun b => decide (Fits (required n) b)) with
      | none =>
        have := List.find?_eq_none.mp hfind b hb
        simp only [decide_eq_true_eq] at this
        exact this hf
      | some c =>
        rw [hfind] at h
        have hc := List.mem_of_find?_eq_some hfind
        have hfc := List.find?_some hfind
        simp only [decide_eq_true_eq] at hfc
        obtain ⟨s', e, _⟩ := key c hc hfc
        simp only [e, Except.toOption, Option.map_some', Option.some.injEq] at h
        simp at h
    · intro h
      have : bs.find? (fun b => decide (Fits (required n) b)) = none := by
        apply List.find?_eq_none.mpr
        intro b hb
        simp only [decide_eq_true_eq]
        exact h b hb
      rw [this]
      rfl
  · intro b hb hf hmin
    rw [find_lowest _ bs sorted b hb hf hmin]
    obtain ⟨s', e, ha⟩ := key b hb hf
    simp only [e, Except.toOption, Option.map_some', ha, HDR]

/-- Witness for C8 (scenario S2): with blocks of 32 bytes at offsets 0, 32 and
64 and the middle one free, `myalloc(16)` returns 36, inside the hole. -/
theorem first_fit_placement_witness :
    Partitioned holeState holeWalk ∧
      Fits (required 16) { off := 32, size := 32, allocated := 0 } ∧
      (myalloc holeState 16).toOption.map (fun r => (r.2, getAllocated r.1.heap 32))
        = some (some 36, 1) :=
  ⟨⟨by decide, by decide⟩, by decide,
    (first_fit_placement holeState holeWalk 16 ⟨by decide, by decide⟩ (by decide)).2
      { off := 32, size := 32, allocated := 0 } (by decide) (by decide) (by decide)⟩

/-- C9 (best-fit, not implemented by the code): with `use_first_fit = 0` and
free holes of 40, 24 and 32 bytes at offsets 0, 56 and 96 (every other block
allocated), `myalloc(16)`, whose required size is 24, returns offset 4 inside
the 40-byte hole; best-fit would return offset 60 inside the 24-byte hole. -/
theorem best_fit_flag_ignored :
    (runFrom (freshWith 0) [Op.alloc 32, Op.alloc 8, Op.alloc 16, Op.alloc 8, Op.alloc 24,
        Op.alloc 3864, Op.free 4, Op.free 60, Op.free 100]).toOption.bind
      (fun y => (myalloc y.st 16).toOption.map
        (fun r => (y.st.use_first_fit, headerWalk y.st, required 16, r.2)))
    = some (0, some [{ off := 0, size := 40, allocated := 0 },
        { off := 40, size := 16, allocated := 1 }, { off := 56, size := 24, allocated := 0 },
        { off := 80, size := 16, allocated := 1 }, { off := 96, size := 32, allocated := 0 },
        { off := 128, size := 3872, allocated := 1 }], 24, some 4) := by
  decide

/-- C10 as stated fails: after `myalloc(0)` on a fresh heap the first block of
the walk has size 8, below the claimed minimum of 16. -/
theorem zero_request_makes_8_byte_block :
    (run [Op.alloc 0]).toOption.map (fun y => (headerWalk y.st).map
      (fun bs => bs.map (fun b => (b.off, b.size, decide (16 ≤ b.size)))))
    = some (some [(0, 8, false), (8, 3992, true)]) := by
  decide

/-- C10 (amended): after any well-formed sequence of operations on a fresh
heap, every header the walk from offset 0 reads holds a size that is a
multiple of 8; and the block that `myalloc(n)` hands out next, for any request
with `n + 16 ≤ 2 ^ 64`, has a size that is a multiple of 8 and at least 8 (not
16). -/
theorem block_size_floor (ops : List Op) :
    (∀ b ∈ visitedAfter ops, b.size % 8 = 0) ∧
    (∀ n k, n + 16 ≤ SIZE_MOD → handedOutSize ops n = some k → 8 ≤ k ∧ k % 8 = 0) := by
  constructor
  · intro b h
    unfold visitedAfter at h
    split at h
    · rename_i y hy
      exact (visitedFrom_mod8 y.st (run_aligned hy).1 _ 0 (by omega) b h).1
    · simp at h
  · intro n k hn h
    unfold handedOutSize at h
    split at h
    · rename_i y hy
      split at h
      · rename_i r hr
        simp only [Option.map_eq_some'] at h
        obtain ⟨p, hp, rfl⟩ := h
        obtain ⟨w, e, _⟩ := myalloc_aligned (run_aligned hy).1 hr
        have hp4 := e p hp
        exact ⟨scan_size y.st _ (totalSize_ge8 hn) _ _ r hr p hp,
          wa_getSize w (by simp only [HDR]; omega)⟩
      · simp at h
    · simp at h

/-- Witness for C10 (amended): the 8-byte block that `myalloc(0)` creates. -/
theorem block_size_floor_witness :
    ({ off := 0, size := 8, allocated := 1 } : Block) ∈ visitedAfter [Op.alloc 0] ∧ 8 % 8 = 0 ∧
      handedOutSize [Op.alloc 8] 0 = some 8 ∧ 8 ≤ 8 :=
  ⟨by decide,
   (block_size_floor [Op.alloc 0]).1 { off := 0, size := 8, allocated := 1 } (by decide),
   by decide,
   ((block_size_floor [Op.alloc 8]).2 0 8 (by decide) (by decide)).1⟩

/-! ## Splitting -/

theorem hdrWord_setSize_disjoint (m : Nat → Nat) (o v o' : Nat) (h : o + 4 ≤ o' ∨ o' + 4 ≤ o) :
    hdrWord (setSize m o v) o' = hdrWord m o' :=
  hdrWord_putWord_disjoint _ _ _ _ h

theorem hdrWord_setAllocated_disjoint (m : Nat → Nat) (o a o' : Nat)
    (h : o + 4 ≤ o' ∨ o' + 4 ≤ o) :
    hdrWord (setAllocated m o a) o' = hdrWord m o' :=
  hdrWord_putWord_disjoint _ _ _ _ h

theorem hdrWord_setAllocated_lt (m : Nat → Nat) (o a : Nat) :
    hdrWord (setAllocated m o a) o < 4294967296 := by
  unfold setAllocated
  rw [hdrWord_putWord_same]
  omega

/-- The writes that end a placement (allocated bit of the header, then the
footer) leave every other word as it was. -/
theorem hdrWord_place_tail (m : Nat → Nat) (i ft v o : Nat) (h1 : i + 4 ≤ o ∨ o + 4 ≤ i)
    (h2 : ft + 4 ≤ o ∨ o + 4 ≤ ft) :
    hdrWord (setSize (setAllocated (setAllocated m i 1) ft 1) ft v) o = hdrWord m o := by
  rw [hdrWord_setSize_disjoint _ _ _ _ h2, hdrWord_setAllocated_disjoint _ _ _ _ h2,
    hdrWord_setAllocated_disjoint _ _ _ _ h1]

theorem totalSize_eq_required_of_le {n : Nat} (hn : n + 16 ≤ SIZE_MOD) :
    totalSize n = required n := by
  unfold totalSize required
  simp only [SIZE_MOD, HDR] at *
  split_ifs <;> omega

/-- Placement with a remainder of at least 8 bytes: the chosen block shrinks to
`total`, and a free block with equal header and footer words follows it. -/
theorem place_split {s : State} {total i : Nat} (h8 : 8 ≤ total)
    (hfit : total ≤ getSize s.heap i) (hin : i + getSize s.heap i ≤ 4000)
    (hrem : 8 ≤ getSize s.heap i - total) :
    ∃ s', myalloc_place s total i = Except.ok (s', some (i + 4)) ∧
      getSize s'.heap i = total ∧ getAllocated s'.heap i = 1 ∧
      getSize s'.heap (i + total) = getSize s.heap i - total ∧
      getAllocated s'.heap (i + total) = 0 ∧
      hdrWord s'.heap (i + total + (getSize s.heap i - total) - 4)
        = hdrWord s'.heap (i + total) := by
  have hlt := getSize_lt s.heap i
  simp only [myalloc_place, HDR]
  rw [if_pos (show getSize s.heap i - total > 4 by omega)]
  have e1 : getSize (setAllocated (putWord (setAllocated (setSize (setSize s.heap i total)
      (i + total) (getSize s.heap i - total)) (i + total) 0)
      (i + total + (getSize s.heap i - total) - 4)
      (hdrWord (setAllocated (setSize (setSize s.heap i total) (i + total)
        (getSize s.heap i - total)) (i + total) 0) (i + total))) i 1) i = total := by
    rw [getSize_setAllocated_same, getSize_putWord_disjoint _ _ _ _ (by omega),
      getSize_setAllocated_disjoint _ _ _ _ (by omega),
      getSize_setSize_disjoint _ _ _ _ (by omega), getSize_setSize_same]
    omega
  simp only [chk_ok (show i + total + 4 ≤ 4000 by omega),
    ptrSub_ok (show 4 ≤ i + total + (getSize s.heap i - total) by omega),
    chk_ok (show i + total + (getSize s.heap i - total) - 4 + 4 ≤ 4000 by omega),
    bind, Except.bind, pure, Except.pure, e1,
    ptrSub_ok (show 4 ≤ i + total by omega), chk_ok (show i + total - 4 + 4 ≤ 4000 by omega)]
  refine ⟨_, rfl, ?_, ?_, ?_, ?_, ?_⟩
  · simp only
    rw [getSize_setSize_disjoint _ _ _ _ (by omega),
      getSize_setAllocated_disjoint _ _ _ _ (by omega), e1]
  · simp only
    rw [getAllocated_setSize_disjoint _ _ _ _ (by omega),
      getAllocated_setAllocated_disjoint _ _ _ _ (by omega), getAllocated_setAllocated_same]
  · simp only
    rw [getSize_setSize_disjoint _ _ _ _ (by omega),
      getSize_setAllocated_disjoint _ _ _ _ (by omega),
      getSize_setAllocated_disjoint _ _ _ _ (by omega),
      getSize_putWord_disjoint _ _ _ _ (by omega), getSize_setAllocated_same,
      getSize_setSize_same]
    omega
  · simp only
    rw [getAllocated_setSize_disjoint _ _ _ _ (by omega),
      getAllocated_setAllocated_disjoint _ _ _ _ (by omega),
      getAllocated_setAllocated_disjoint _ _ _ _ (by omega),
      getAllocated_putWord_disjoint _ _ _ _ (by omega), getAllocated_setAllocated_same]
  · simp only
    have hw := hdrWord_setAllocated_lt (setSize (setSize s.heap i total) (i + total)
      (getSize s.heap i - total)) (i + total) 0
    rw [hdrWord_place_tail _ _ _ _ _ (by omega) (by omega),
      hdrWord_place_tail _ _ _ _ _ (by omega) (by omega), hdrWord_putWord_same,
      hdrWord_putWord_disjoint _ _ _ _ (by omega)]
    omega

/-- Placement with no remainder worth splitting: the chosen block keeps its
size. -/
theorem place_whole {s : State} {total i : Nat} (h8 : 8 ≤ total)
    (hfit : total ≤ getSize s.heap i) (hin : i + getSize s.heap i ≤ 4000)
    (hrem : getSize s.heap i - total ≤ 4) :
    ∃ s', myalloc_place s total i = Except.ok (s', some (i + 4)) ∧
      getSize s'.heap i = getSize s.heap i ∧ getAllocated s'.heap i = 1 := by
  simp only [myalloc_place, HDR]
  rw [if_neg (show ¬ getSize s.heap i - total > 4 by omega)]
  have e1 : getSize (setAllocated s.heap i 1) i = getSize s.heap i :=
    getSize_setAllocated_same _ _ _
  simp only [bind, Except.bind, pure, Except.pure, e1,
    ptrSub_ok (show 4 ≤ i + getSize s.heap i by omega),
    chk_ok (show i + getSize s.heap i - 4 + 4 ≤ 4000 by omega)]
  refine ⟨_, rfl, ?_, ?_⟩
  · simp only
    rw [getSize_setSize_disjoint _ _ _ _ (by omega),
      getSize_setAllocated_disjoint _ _ _ _ (by omega), e1]
  · simp only
    rw [getAllocated_setSize_disjoint _ _ _ _ (by omega),
      getAllocated_setAllocated_disjoint _ _ _ _ (by omega), getAllocated_setAllocated_same]

/-- C11 as stated fails: on a fresh heap `myalloc(3984)` needs 3992 bytes of the
4000-byte block; the remainder is 8, below 16, yet the block is split into an
allocated block of 3992 bytes and a free block of 8 bytes. -/
theorem remainder_of_8_is_split :
    (run [Op.alloc 3984]).toOption.map (fun y => (required 3984, headerWalk y.st))
    = some (3992, some [{ off := 0, size := 3992, allocated := 1 },
        { off := 3992, size := 8, allocated := 0 }]) := by
  decide

/-- C11 (amended): on a heap whose header walk partitions the region, let
`myalloc(n)` choose the free block `b` (the lowest fitting one), of a size `S`
that is a multiple of 8, with `R = required n ≤ S`.  The call returns
`b.off + 4` and marks the block allocated.  If `S - R ≥ 8` the block shrinks to
size `R` and a free block of size `S - R`, with equal header and footer words,
starts right after it; if `S - R < 8` the block is not split and keeps size
`S`. -/
theorem split_policy (s : State) (bs : List Block) (n : Nat) (b : Block)
    (hw : Partitioned s bs) (hb : b ∈ bs) (hm : b.size % 8 = 0) (hf : Fits (required n) b)
    (hmin : ∀ c ∈ bs, c.off < b.off → ¬ Fits (required n) c) :
    ∃ s', myalloc s n = Except.ok (s', some (b.off + HDR)) ∧
      getAllocated s'.heap b.off = 1 ∧
      (8 ≤ b.size - required n →
        getSize s'.heap b.off = required n ∧
        getSize s'.heap (b.off + required n) = b.size - required n ∧
        getAllocated s'.heap (b.off + required n) = 0 ∧
        hdrWord s'.heap (b.off + b.size - HDR) = hdrWord s'.heap (b.off + required n)) ∧
      (b.size - required n < 8 → getSize s'.heap b.off = b.size) := by
  obtain ⟨hwalk, _⟩ := hw
  obtain ⟨facts, sorted⟩ := walkFrom_facts s _ _ _ hwalk
  obtain ⟨_, e1, _, e3, _⟩ := facts b hb
  have hscan := scan_find s (required n) _ _ _ hwalk
  rw [find_lowest _ bs sorted b hb hf hmin] at hscan
  have h8 : 8 ≤ required n := by unfold required; omega
  have hr8 : required n % 8 = 0 := by unfold required; omega
  have hle : required n ≤ b.size := hf.2
  have hn : n + 16 ≤ SIZE_MOD := by
    have : n + 8 ≤ required n := by unfold required; omega
    simp only [SIZE_MOD]
    omega
  unfold myalloc
  rw [totalSize_eq_required_of_le hn, hscan]
  simp only [HDR]
  by_cases hrem : 8 ≤ b.size - required n
  · obtain ⟨s', r1, r2, r3, r4, r5, r6⟩ := place_split (s := s) (i := b.off) h8
      (by rw [← e1]; exact hle) (by rw [← e1]; exact e3) (by rw [← e1]; exact hrem)
    rw [← e1] at r4 r6
    rw [show b.off + required n + (b.size - required n) - 4 = b.off + b.size - 4 by omega] at r6
    exact ⟨s', r1, r3, fun _ => ⟨r2, r4, r5, r6⟩, fun h => absurd hrem (by omega)⟩
  · obtain ⟨s', r1, r2, r3⟩ := place_whole (s := s) (i := b.off) h8
      (by rw [← e1]; exact hle) (by rw [← e1]; exact e3) (by rw [← e1]; omega)
    rw [← e1] at r2
    exact ⟨s', r1, r3, fun h => absurd h hrem, fun _ => r2⟩

theorem split_policy_witness :
    Partitioned holeState holeWalk ∧
      Fits (required 16) { off := 32, size := 32, allocated := 0 } ∧
      ∃ s', myalloc holeState 16 = Except.ok (s', some 36) ∧
        getAllocated s'.heap 32 = 1 ∧ getSize s'.heap 32 = 24 ∧ getSize s'.heap 56 = 8 ∧
        getAllocated s'.heap 56 = 0 ∧ hdrWord s'.heap 60 = hdrWord s'.heap 56 := by
  refine ⟨⟨by decide, by decide⟩, by decide, ?_⟩
  obtain ⟨s', h1, h2, h3, _⟩ := split_policy holeState holeWalk 16
    { off := 32, size := 32, allocated := 0 } ⟨by decide, by decide⟩ (by decide) (by decide)
    (by decide) (by decide)
  exact ⟨s', h1, h2, h3 (by decide)⟩
/-! ## Failure leaves the heap unchanged -/

theorem place_some {s : State} {total i : Nat} {r : State × Option Nat}
    (h : myalloc_place s total i = Except.ok r) : r.2 = some (i + 4) := by
  simp only [myalloc_place] at h
  split_ifs at h with h3
  · simp only [bind_eq_ok, chk_eq_ok, pure_eq_ok, ptrSub_eq_ok, HDR] at h
    obtain ⟨s1, _, ft, _, _, _, rfl⟩ := h
    rfl
  · simp only [bind_eq_ok, chk_eq_ok, pure_eq_ok, ptrSub_eq_ok, HDR] at h
    obtain ⟨s1, _, ft, _, _, _, rfl⟩ := h
    rfl

theorem scan_none (s : State) (total : Nat) : ∀ (fuel i : Nat) (r : State × Option Nat),
    myalloc_scan s total fuel i = Except.ok r → r.2 = none → r.1 = s := by
  intro fuel
  induction fuel with
  | zero =>
    intro i r h
    simp [myalloc_scan, throw, throwThe, MonadExceptOf.throw] at h
  | succ fuel ih =>
    intro i r h hr
    simp only [myalloc_scan] at h
    split_ifs at h with h1 h2
    · simp only [bind_eq_ok, chk_eq_ok] at h
      obtain ⟨_, _, h⟩ := h
      rw [place_some h] at hr
      simp at hr
    · simp only [bind_eq_ok, chk_eq_ok] at h
      obtain ⟨_, _, h⟩ := h
      exact ih _ r h hr
    · simp only [pure_eq_ok] at h
      subst h
      rfl

theorem myalloc_null {s : State} {n : Nat}
    (h : (myalloc s n).toOption.map Prod.snd = some none) :
    myalloc s n = Except.ok (s, none) := by
  cases hr : myalloc s n with
  | error e => rw [hr] at h; simp [Except.toOption] at h
  | ok r =>
    rw [hr] at h
    simp only [Except.toOption, Option.map_some', Option.some.injEq] at h
    have := scan_none s _ _ _ r hr h
    obtain ⟨r1, r2⟩ := r
    simp only at h this
    subst h this
    rfl

/-- C12: whenever `myalloc(n)` returns `NULL`, the whole state (every heap byte,
`current_heap_size`, the flags) is the same after the call as before.  In
particular, on a fresh heap `myalloc(3992)` succeeds and its block is the
whole region of 4000 bytes, and a following `myalloc(1)` returns `NULL`. -/
theorem out_of_memory_unchanged :
    (∀ (s : State) (n : Nat), (myalloc s n).toOption.map Prod.snd = some none →
      myalloc s n = Except.ok (s, none)) ∧
    (run [Op.alloc 3992]).toOption.map (fun y => (headerWalk y.st, y.live))
      = some (some [{ off := 0, size := 4000, allocated := 1 }], [(4, 3992)]) ∧
    (myalloc fullState 1).toOption.map Prod.snd = some none :=
  ⟨fun _ _ h => myalloc_null h, by decide, by decide⟩

/-- Witness for C12: the failing `myalloc(1)` of scenario S5. -/
theorem out_of_memory_unchanged_witness :
    (myalloc fullState 1).toOption.map Prod.snd = some none ∧
      myalloc fullState 1 = Except.ok (fullState, none) :=
  ⟨by decide, out_of_memory_unchanged.1 fullState 1 (by decide)⟩

/-! ## Live addresses lie inside the array -/

theorem scan_inArray (s : State) (total : Nat) : ∀ (fuel i : Nat) (r : State × Option Nat),
    myalloc_scan s total fuel i = Except.ok r → ∀ p, r.2 = some p → InArray p := by
  intro fuel
  induction fuel with
  | zero =>
    intro i r h
    simp [myalloc_scan, throw, throwThe, MonadExceptOf.throw] at h
  | succ fuel ih =>
    intro i r h p hp
    simp only [myalloc_scan] at h
    split_ifs at h with h1 h2
    · simp only [bind_eq_ok, chk_eq_ok] at h
      obtain ⟨_, hc, h⟩ := h
      rw [place_some h] at hp
      simp only [Option.some.injEq] at hp
      subst hp
      simp only [InArray, HDR, INITIAL_HEAP_SIZE]
      omega
    · simp only [bind_eq_ok, chk_eq_ok] at h
      obtain ⟨_, _, h⟩ := h
      exact ih _ r h p hp
    · simp only [pure_eq_ok] at h
      subst h
      simp at hp

theorem myalloc_inArray {s : State} {n : Nat} {r : State × Option Nat}
    (h : myalloc s n = Except.ok r) : ∀ p, r.2 = some p → InArray p :=
  scan_inArray s _ _ _ r h

theorem myrealloc_inArray {s : State} {ptr : Option Nat} {n : Nat} {r : State × Option Nat}
    (h : myrealloc s ptr n = Except.ok r) : ∀ q, r.2 = some q → InArray q := by
  cases ptr with
  | none => exact myalloc_inArray h
  | some p =>
    simp only [myrealloc, bind_eq_ok, chk_eq_ok, ptrSub_eq_ok, HDR] at h
    obtain ⟨hd, ⟨_, rfl⟩, _, _, h⟩ := h
    by_cases h0 : n = 0
    · simp only [h0, if_true, bind_eq_ok, pure_eq_ok] at h
      obtain ⟨s1, _, rfl⟩ := h
      intro q hq
      simp at hq
    · simp only [h0, if_false, bind_eq_ok] at h
      obtain ⟨r1, ha, h⟩ := h
      have e1 := myalloc_inArray ha
      split at h
      · rename_i np hnp
        have hq := e1 np hnp
        split_ifs at h
        all_goals first
          | (simp only [throw_eq_ok] at h)
          | (simp only [bind_eq_ok, pure_eq_ok] at h
             obtain ⟨s3, _, rfl⟩ := h
             intro q hq'
             simp only [Option.some.injEq] at hq'
             subst hq'
             exact hq)
      · simp only [pure_eq_ok] at h
        subst h
        rename_i hnone
        intro q hq
        simp [hnone] at hq

theorem dropLive_in {live : List (Nat × Nat)} (p : Nat) (hl : ∀ e ∈ live, InArray e.1) :
    ∀ e ∈ dropLive live p, InArray e.1 := by
  intro e he
  unfold dropLive at he
  exact hl e (List.mem_filter.mp he).1

theorem cons_in {live : List (Nat × Nat)} {q n : Nat} (hq : InArray q)
    (hl : ∀ e ∈ live, InArray e.1) : ∀ e ∈ (q, n) :: live, InArray e.1 := by
  intro e he
  rcases List.mem_cons.mp he with rfl | h
  · exact hq
  · exact hl e h

theorem exec_live_in {y : Sys} {op : Op} {r : Sys × Option Nat}
    (hl : ∀ e ∈ y.live, InArray e.1) (h : exec y op = Except.ok r) :
    ∀ e ∈ r.1.live, InArray e.1 := by
  cases op with
  | alloc n =>
    simp only [exec] at h
    split_ifs at h with hn
    · simp only [bind_eq_ok] at h
      obtain ⟨r1, ha, h⟩ := h
      have e1 := myalloc_inArray ha
      split at h
      · rename_i q hq
        simp only [pure_eq_ok] at h
        subst h
        exact cons_in (e1 q hq) hl
      · simp only [pure_eq_ok] at h
        subst h
        exact hl
  | free p =>
    simp only [exec] at h
    split_ifs at h with hp
    · simp only [bind_eq_ok, pure_eq_ok] at h
      obtain ⟨s1, _, rfl⟩ := h
      exact dropLive_in p hl
  | realloc ptr n =>
    cases ptr with
    | none =>
      simp only [exec] at h
      split_ifs at h with hn
      · simp only [bind_eq_ok] at h
        obtain ⟨r1, ha, h⟩ := h
        have e1 := myrealloc_inArray ha
        split at h
        · rename_i q hq
          simp only [pure_eq_ok] at h
          subst h
          exact cons_in (e1 q hq) hl
        · simp only [pure_eq_ok] at h
          subst h
          exact hl
    | some p =>
      simp only [exec] at h
      split_ifs at h with hp hn
      · simp only [bind_eq_ok, pure_eq_ok] at h
        obtain ⟨r1, _, rfl⟩ := h
        exact dropLive_in p hl
      · simp only [bind_eq_ok] at h
        obtain ⟨r1, ha, h⟩ := h
        have e1 := myrealloc_inArray ha
        split at h
        · rename_i q hq
          simp only [pure_eq_ok] at h
          subst h
          exact cons_in (e1 q hq) (dropLive_in p hl)
        · simp only [pure_eq_ok] at h
          subst h
          exact hl

theorem runFrom_live_in : ∀ (ops : List Op) (y y' : Sys), (∀ e ∈ y.live, InArray e.1) →
    runFrom y ops = Except.ok y' → ∀ e ∈ y'.live, InArray e.1 := by
  intro ops
  induction ops with
  | nil =>
    intro y y' hy h
    simp only [runFrom, pure_eq_ok] at h
    subst h
    exact hy
  | cons op ops ih =>
    intro y y' hy h
    simp only [runFrom, step, bind_eq_ok, pure_eq_ok] at h
    obtain ⟨y1, ⟨r, he, rfl⟩, h⟩ := h
    exact ih _ _ (exec_live_in hy he) h

/-- Every live address of a system reached from a fresh heap lies inside the
array, one header or more from its base. -/
theorem run_live_in {ops : List Op} {y : Sys} (h : run ops = Except.ok y) :
    ∀ e ∈ y.live, InArray e.1 :=
  runFrom_live_in ops _ _ (by simp [fresh, freshWith]) h
theorem realloc_null (s : State) (p n : Nat) (hp : InArray p) (hn : n ≠ 0)
    (h : (myalloc s n).toOption.map Prod.snd = some none) :
    myrealloc s (some p) n = Except.ok (s, none) := by
  obtain ⟨h1, h2⟩ := hp
  simp only [HDR, INITIAL_HEAP_SIZE] at h1 h2
  simp only [myrealloc, HDR, ptrSub_ok h1, chk_ok (show p - 4 + 4 ≤ 4000 by omega), bind,
    Except.bind, if_neg hn, myalloc_null h]
  rfl

/-- C13: when the fresh allocation inside `myrealloc(p, n)`, `n > 0`, fails,
`myrealloc` returns `NULL` and the whole state is unchanged, so the block of
`p` keeps its header, footer and payload.  This holds on every state and for
every address `p` inside the array; every live address of a system reached
from a fresh heap by well-formed operations is such an address. -/
theorem realloc_failure_unchanged :
    (∀ (s : State) (p n : Nat), InArray p → n ≠ 0 →
      (myalloc s n).toOption.map Prod.snd = some none →
      myrealloc s (some p) n = Except.ok (s, none)) ∧
    (∀ (ops : List Op) (y : Sys), run ops = Except.ok y → ∀ e ∈ y.live, InArray e.1) :=
  ⟨realloc_null, fun _ _ h => run_live_in h⟩

/-- Witness for C13: `myrealloc(4, 8)` on the full heap of scenario S5. -/
theorem realloc_failure_unchanged_witness :
    InArray 4 ∧ (myalloc fullState 8).toOption.map Prod.snd = some none ∧
      myrealloc fullState (some 4) 8 = Except.ok (fullState, none) :=
  ⟨by decide, by decide, realloc_failure_unchanged.1 fullState 4 8 (by decide) (by decide)
    (by decide)⟩

theorem realloc_zero_eq (s : State) (p : Nat) :
    myrealloc s (some p) 0 = (myfree s (some p)).map (fun s1 => (s1, none)) := by
  simp only [myrealloc, myfree, HDR]
  cases h1 : ptrSub p 4 with
  | error e => rfl
  | ok hd =>
    simp only [bind, Except.bind]
    cases h2 : chk hd with
    | error e => rfl
    | ok u =>
      simp only [if_true, Except.map]
      rfl

/-- C14: `myrealloc(p, 0)` is `myfree(p)` followed by returning `NULL`: the two
calls leave the same state, and `myrealloc` has a result exactly when `myfree`
has one.  On the live address 68 of `holeState` the call returns `NULL` and
leaves the walk that `myfree(68)` leaves. -/
theorem realloc_zero_is_free :
    (∀ (s : State) (p : Nat),
      myrealloc s (some p) 0 = (myfree s (some p)).map (fun s1 => (s1, none))) ∧
    (myrealloc holeState (some 68) 0).toOption.map (fun r => (r.2, headerWalk r.1))
      = some (none, some [{ off := 0, size := 32, allocated := 1 },
          { off := 32, size := 3968, allocated := 0 }]) ∧
    (myfree holeState (some 68)).toOption.map headerWalk
      = some (some [{ off := 0, size := 32, allocated := 1 },
          { off := 32, size := 3968, allocated := 0 }]) :=
  ⟨realloc_zero_eq, by decide, by decide⟩
/-! ## Region resize -/

theorem mysbrk_heap (s : State) (delta : Int) : (mysbrk s delta).heap = s.heap := by
  unfold mysbrk
  simp only
  split_ifs <;> rfl

theorem mysbrk_range (s : State) (delta : Int)
    (hc : 4000 ≤ s.current_heap_size ∧ s.current_heap_size ≤ 400000) :
    4000 ≤ (mysbrk s delta).current_heap_size ∧
      (mysbrk s delta).current_heap_size ≤ 400000 := by
  unfold mysbrk
  simp only [SIZE_MOD, MAX_HEAP_SIZE, INITIAL_HEAP_SIZE]
  split_ifs with h
  · exact hc
  · simp only
    omega

theorem sbrkAll_range : ∀ (deltas : List Int) (s : State),
    4000 ≤ s.current_heap_size ∧ s.current_heap_size ≤ 400000 →
    4000 ≤ (sbrkAll s deltas).current_heap_size ∧
      (sbrkAll s deltas).current_heap_size ≤ 400000 ∧ (sbrkAll s deltas).heap = s.heap := by
  intro deltas
  induction deltas with
  | nil => intro s hc; exact ⟨hc.1, hc.2, rfl⟩
  | cons d ds ih =>
    intro s hc
    have := ih (mysbrk s d) (mysbrk_range s d hc)
    simp only [sbrkAll, List.foldl_cons] at this ⊢
    rw [mysbrk_heap] at this
    exact this

/-- C15: for `current_heap_size` in `[4000, 400000]` and a 32-bit `delta`,
`mysbrk(delta)` sets `current_heap_size` to the sum exactly when the sum lies
in `[4000, 400000]` and otherwise leaves the whole state as it was; no heap
byte changes in either case, and after any run of `mysbrk` calls
`current_heap_size` is still in `[4000, 400000]`. -/
theorem sbrk_bounds (s : State) (delta : Int)
    (hc : 4000 ≤ s.current_heap_size ∧ s.current_heap_size ≤ 400000)
    (hd : -2147483648 ≤ delta ∧ delta ≤ 2147483647) :
    ((4000 ≤ (s.current_heap_size : Int) + delta ∧
        (s.current_heap_size : Int) + delta ≤ 400000) →
      ((mysbrk s delta).current_heap_size : Int) = (s.current_heap_size : Int) + delta) ∧
    (¬ (4000 ≤ (s.current_heap_size : Int) + delta ∧
        (s.current_heap_size : Int) + delta ≤ 400000) → mysbrk s delta = s) ∧
    (mysbrk s delta).heap = s.heap ∧
    (∀ deltas : List Int, 4000 ≤ (sbrkAll s deltas).current_heap_size ∧
      (sbrkAll s deltas).current_heap_size ≤ 400000 ∧ (sbrkAll s deltas).heap = s.heap) := by
  refine ⟨?_, ?_, mysbrk_heap s delta, fun deltas => sbrkAll_range deltas s hc⟩
  · intro h
    unfold mysbrk
    simp only [SIZE_MOD, MAX_HEAP_SIZE, INITIAL_HEAP_SIZE]
    split_ifs with h1
    · omega
    · simp only
      omega
  · intro h
    unfold mysbrk
    simp only [SIZE_MOD, MAX_HEAP_SIZE, INITIAL_HEAP_SIZE]
    split_ifs with h1
    · rfl
    · omega

/-- Witness for C15: growing the initial region by 8 bytes. -/
theorem sbrk_bounds_witness :
    (4000 ≤ start.current_heap_size ∧ start.current_heap_size ≤ 400000) ∧
      ((mysbrk start 8).current_heap_size : Int) = (start.current_heap_size : Int) + 8 :=
  ⟨by decide, (sbrk_bounds start 8 (by decide) (by decide)).1 (by decide)⟩

/-- C16 as stated fails: on a fresh heap the trailing block is the free block
of 4000 bytes at offset 0; `mysbrk(8)` is accepted and the region has 4008
bytes, yet the header at offset 0 still holds size 4000 (the block is not
enlarged by 8) and no heap byte was written, so no new header exists. -/
theorem growth_adds_no_block :
    ((mysbrk fresh.st 8).current_heap_size, headerWalk fresh.st,
      getSize (mysbrk fresh.st 8).heap 0, getAllocated (mysbrk fresh.st 8).heap 0)
    = (4008, some [{ off := 0, size := 4000, allocated := 0 }], 4000, 0) ∧
    (mysbrk fresh.st 8).heap = fresh.st.heap :=
  ⟨by decide, mysbrk_heap fresh.st 8⟩

/-- C16 (amended): an accepted `mysbrk(delta)` with `delta > 0` (the sum lies
in `[4000, 400000]`) adds `delta` to `current_heap_size` and writes no heap
byte: every header holds the size and the allocated bit it held before, so
the call creates no block and enlarges none.  This holds on every state,
well-formed or not. -/
theorem growth_only_moves_the_bound (s : State) (delta : Int) (hd : 0 < delta)
    (hlo : 4000 ≤ (s.current_heap_size : Int) + delta)
    (hhi : (s.current_heap_size : Int) + delta ≤ 400000) :
    ((mysbrk s delta).current_heap_size : Int) = (s.current_heap_size : Int) + delta ∧
    (mysbrk s delta).heap = s.heap ∧
    (∀ o, getSize (mysbrk s delta).heap o = getSize s.heap o ∧
      getAllocated (mysbrk s delta).heap o = getAllocated s.heap o) := by
  refine ⟨?_, mysbrk_heap s delta, fun o => by rw [mysbrk_heap]; exact ⟨rfl, rfl⟩⟩
  unfold mysbrk
  simp only [SIZE_MOD, MAX_HEAP_SIZE, INITIAL_HEAP_SIZE]
  split_ifs with h1
  · omega
  · simp only
    omega

/-- Witness for C16 (amended): `mysbrk(8)` on a fresh heap. -/
theorem growth_only_moves_the_bound_witness :
    ((mysbrk fresh.st 8).current_heap_size : Int) = (fresh.st.current_heap_size : Int) + 8 ∧
      (mysbrk fresh.st 8).heap = fresh.st.heap :=
  ⟨(growth_only_moves_the_bound fresh.st 8 (by decide) (by decide) (by decide)).1,
    (growth_only_moves_the_bound fresh.st 8 (by decide) (by decide) (by decide)).2.1⟩

/-! ## A scan that does not end -/

/-- At a header of size zero that is not chosen the loop of `myalloc` stays
where it is: no amount of fuel gives a result. -/
theorem scan_stuck (s : State) (total : Nat) (i : Nat) (h1 : i < s.current_heap_size)
    (h2 : i + 4 ≤ 4000) (h3 : getSize s.heap i = 0)
    (h4 : ¬ (getAllocated s.heap i = 0 ∧ getSize s.heap i ≥ total)) :
    ∀ fuel, myalloc_scan s total fuel i = Except.error Fault.nonTermination := by
  intro fuel
  induction fuel with
  | zero => rfl
  | succ fuel ih =>
    simp only [myalloc_scan]
    rw [if_pos h1, chk_ok h2]
    simp only [bind, Except.bind]
    rw [if_neg h4, h3, Nat.add_zero]
    exact ih

/-- One iteration of the loop of `myalloc` over a block that is not chosen. -/
theorem scan_skip (s : State) (total : Nat) (fuel i : Nat) (h1 : i < s.current_heap_size)
    (h2 : i + 4 ≤ 4000) (h4 : ¬ (getAllocated s.heap i = 0 ∧ getSize s.heap i ≥ total)) :
    myalloc_scan s total (fuel + 1) i = myalloc_scan s total fuel (i + getSize s.heap i) := by
  simp only [myalloc_scan]
  rw [if_pos h1, chk_ok h2]
  simp only [bind, Except.bind]
  rw [if_neg h4]

theorem allocFault_of (ops : List Op) (n : Nat) (y : Sys) (hy : run ops = Except.ok y)
    (e : Fault) (he : myalloc y.st n = Except.error e) : allocFault ops n = some e := by
  unfold allocFault
  rw [hy]
  simp only
  rw [he]

/-- C17 (termination of the scan, violated by the code): after the eleven
operations below the walk reads a free header of size 0 at offset 3984, below
`current_heap_size = 4000`, and `myalloc(4000)` never returns: the scan skips
the blocks at offsets 0 and 16 and then stays at offset 3984 for ever. -/
theorem scan_does_not_terminate :
    visitedAfter [Op.alloc 8, Op.alloc 8, Op.alloc 8, Op.alloc 8, Op.alloc 8, Op.free 4,
        Op.free 36, Op.free 20, Op.free 52, Op.alloc 8, Op.free 68]
      = [{ off := 0, size := 16, allocated := 1 }, { off := 16, size := 3968, allocated := 0 },
         { off := 3984, size := 0, allocated := 0 }] ∧
    allocFault [Op.alloc 8, Op.alloc 8, Op.alloc 8, Op.alloc 8, Op.alloc 8, Op.free 4,
        Op.free 36, Op.free 20, Op.free 52, Op.alloc 8, Op.free 68] 4000
      = some Fault.nonTermination := by
  refine ⟨by decide, ?_⟩
  have key : (run [Op.alloc 8, Op.alloc 8, Op.alloc 8, Op.alloc 8, Op.alloc 8, Op.free 4,
      Op.free 36, Op.free 20, Op.free 52, Op.alloc 8, Op.free 68]).toOption.map
      (fun y => [y.st.current_heap_size, getSize y.st.heap 0, getAllocated y.st.heap 0,
        getSize y.st.heap 16, getAllocated y.st.heap 16, getSize y.st.heap 3984,
        getAllocated y.st.heap 3984]) = some [4000, 16, 1, 3968, 0, 0, 0] := by
    decide
  cases hy : run [Op.alloc 8, Op.alloc 8, Op.alloc 8, Op.alloc 8, Op.alloc 8, Op.free 4,
      Op.free 36, Op.free 20, Op.free 52, Op.alloc 8, Op.free 68] with
  | error e =>
    rw [hy] at key
    simp [Except.toOption] at key
  | ok y =>
    rw [hy] at key
    simp only [Except.toOption, Option.map_some', Option.some.injEq, List.cons.injEq,
      and_true] at key
    obtain ⟨k0, k1, k2, k3, k4, k5, k6⟩ := key
    have ht : totalSize 4000 = 4008 := by decide
    have e : myalloc y.st 4000 = Except.error Fault.nonTermination := by
      unfold myalloc
      rw [ht, k0, scan_skip y.st 4008 4000 0 (by omega) (by omega) (by omega), k1,
        Nat.zero_add, scan_skip y.st 4008 3999 16 (by omega) (by omega) (by omega), k3,
        show (16 : Nat) + 3968 = 3984 from rfl]
      exact scan_stuck y.st 4008 3984 (by omega) (by omega) k5 (by omega) 3999
    exact allocFault_of _ _ y hy _ e
/-! ## Coalescing on a tag-consistent heap: the heap -/

theorem getSize_congr {m m' : Nat → Nat} {c : Nat} (h : hdrWord m' c = hdrWord m c) :
    getSize m' c = getSize m c := by
  unfold getSize
  rw [h]

theorem getAllocated_congr {m m' : Nat → Nat} {c : Nat} (h : hdrWord m' c = hdrWord m c) :
    getAllocated m' c = getAllocated m c := by
  unfold getAllocated
  rw [h]

/-- Marking both tags of the block `[o, o + S)` free. -/
theorem mark_free (m : Nat → Nat) (o S : Nat) (hS : getSize m o = S) (h8 : 8 ≤ S) :
    SameOutside m (setAllocated (setAllocated m o 0) (o + S - 4) 0) o (o + S) ∧
    getSize (setAllocated (setAllocated m o 0) (o + S - 4) 0) o = S ∧
    getAllocated (setAllocated (setAllocated m o 0) (o + S - 4) 0) o = 0 := by
  refine ⟨?_, ?_, ?_⟩
  · intro c hc
    rw [hdrWord_setAllocated_disjoint _ _ _ _ (by omega),
      hdrWord_setAllocated_disjoint _ _ _ _ (by omega)]
  · rw [getSize_setAllocated_disjoint _ _ _ _ (by omega), getSize_setAllocated_same, hS]
  · rw [getAllocated_setAllocated_disjoint _ _ _ _ (by omega),
      getAllocated_setAllocated_same]

/-- The forward step of `myfree` on a block `[o, o + S)` whose tags were marked
free. -/
theorem next_step (m0 m2 : Nat → Nat) (cur o S ns : Nat) (h8 : 8 ≤ S)
    (hin : o + S ≤ 4000)
    (hf : SameOutside m0 m2 o (o + S)) (hs : getSize m2 o = S)
    (ha : getAllocated m2 o = 0) (hn : NextInfo m0 cur o S ns) :
    ∃ m3, myfree_next cur m2 o (o + S - 4) S = Except.ok (m3, S + ns) ∧
      SameOutside m0 m3 o (o + S + ns) ∧ getSize m3 o = S + ns ∧ getAllocated m3 o = 0 := by
  simp only [myfree_next, HDR]
  rw [show o + S - 4 + 4 = o + S by omega]
  rcases hn with ⟨rfl, h | ⟨h1, h2⟩⟩ | ⟨h4, h5, h6, h7, h9⟩
  · rw [if_neg (by omega)]
    exact ⟨m2, rfl, hf, hs, ha⟩
  · by_cases hc : o + S < cur
    · have e1 : ¬ getAllocated m2 (o + S) = 0 := by
        rw [getAllocated_congr (hf (o + S) (Or.inr (le_refl _)))]; exact h2
      simp only [if_pos hc, chk_ok h1, bind, Except.bind, if_neg e1]
      exact ⟨m2, rfl, hf, hs, ha⟩
    · rw [if_neg hc]
      exact ⟨m2, rfl, hf, hs, ha⟩
  · have e1 : getAllocated m2 (o + S) = 0 := by
      rw [getAllocated_congr (hf (o + S) (Or.inr (le_refl _)))]; exact h6
    have e2 : getSize m2 (o + S) = ns := by
      rw [getSize_congr (hf (o + S) (Or.inr (le_refl _)))]; exact h7
    simp only [if_pos h5, chk_ok (show o + S + 4 ≤ 4000 by omega), bind, Except.bind,
      if_pos e1, e2, ptrSub_ok (show 4 ≤ o + S + ns by omega),
      chk_ok (show o + S + ns - 4 + 4 ≤ 4000 by omega)]
    refine ⟨_, rfl, ?_, ?_, ?_⟩
    · intro c hc
      rw [hdrWord_setSize_disjoint _ _ _ _ (by omega),
        hdrWord_setSize_disjoint _ _ _ _ (by omega)]
      exact hf c (by omega)
    · rw [getSize_setSize_disjoint _ _ _ _ (by omega), getSize_setSize_same]
      omega
    · rw [getAllocated_setSize_disjoint _ _ _ _ (by omega), getAllocated_setSize_same]
      exact ha

/-- The backward step of `myfree` on a free block `[o, o + L)`; `f` is the
footer that was computed before the forward step. -/
theorem prev_step (m0 m3 : Nat → Nat) (o L f ps : Nat) (hin : o + L ≤ 4000)
    (hf1 : o + 4 ≤ f) (hf2 : f + 4 ≤ o + L)
    (hf : SameOutside m0 m3 o (o + L)) (hs : getSize m3 o = L)
    (ha : getAllocated m3 o = 0) (hp : PrevInfo m0 o ps) :
    ∃ m4, myfree_prev m3 o f L = Except.ok m4 ∧
      SameOutside m0 m4 (o - ps) (o + L) ∧ getSize m4 (o - ps) = ps + L ∧
      getAllocated m4 (o - ps) = 0 := by
  simp only [myfree_prev, HDR]
  rcases hp with ⟨rfl, h | ⟨h1, h2⟩⟩ | ⟨h4, h5, h6, h7, h8, h9⟩
  · subst h
    rw [if_neg (by omega)]
    exact ⟨m3, rfl, hf, by simpa using hs, ha⟩
  · have e1 : ¬ getAllocated m3 (o - 4) = 0 := by
      rw [getAllocated_congr (hf (o - 4) (Or.inl (by omega)))]; exact h2
    simp only [if_pos (show o > 0 by omega), ptrSub_ok h1,
      chk_ok (show o - 4 + 4 ≤ 4000 by omega), bind, Except.bind, if_neg e1]
    exact ⟨m3, rfl, hf, by simpa using hs, ha⟩
  · have e1 : getAllocated m3 (o - 4) = 0 := by
      rw [getAllocated_congr (hf (o - 4) (Or.inl (by omega)))]; exact h6
    have e2 : getSize m3 (o - 4) = ps := by
      rw [getSize_congr (hf (o - 4) (Or.inl (by omega)))]; exact h7
    have e3 : getSize m3 (o - ps) = ps := by
      rw [getSize_congr (hf (o - ps) (Or.inl (by omega)))]; exact h8
    have e4 : getAllocated m3 (o - ps) = 0 := by
      rw [getAllocated_congr (hf (o - ps) (Or.inl (by omega)))]; exact h9
    simp only [if_pos (show o > 0 by omega), ptrSub_ok (show 4 ≤ o by omega),
      chk_ok (show o - 4 + 4 ≤ 4000 by omega), bind, Except.bind, if_pos e1, e2,
      ptrSub_ok h5, chk_ok (show o - ps + 4 ≤ 4000 by omega), e3]
    refine ⟨_, rfl, ?_, ?_, ?_⟩
    · intro c hc
      rw [hdrWord_setSize_disjoint _ _ _ _ (by omega),
        hdrWord_setSize_disjoint _ _ _ _ (by omega)]
      exact hf c (by omega)
    · rw [getSize_setSize_disjoint _ _ _ _ (by omega), getSize_setSize_same]
      omega
    · rw [getAllocated_setSize_disjoint _ _ _ _ (by omega), getAllocated_setSize_same]
      exact e4

/-- The whole of `myfree` on the block `[o, o + S)` of a heap in which the
neighbours are as `NextInfo` and `PrevInfo` say: the call returns, the words
outside the fused block are untouched, and the header of the fused block
holds its size and is free. -/
theorem myfree_fuses (s : State) (o S ns ps : Nat) (hS : getSize s.heap o = S) (h8 : 8 ≤ S)
    (hin : o + S + ns ≤ 4000) (hn : NextInfo s.heap s.current_heap_size o S ns)
    (hp : PrevInfo s.heap o ps) :
    ∃ s', myfree s (some (o + 4)) = Except.ok s' ∧
      s'.current_heap_size = s.current_heap_size ∧
      SameOutside s.heap s'.heap (o - ps) (o + S + ns) ∧
      getSize s'.heap (o - ps) = ps + S + ns ∧ getAllocated s'.heap (o - ps) = 0 := by
  obtain ⟨f0, f1, f2⟩ := mark_free s.heap o S hS h8
  obtain ⟨m3, r1, g0, g1, g2⟩ := next_step s.heap _ s.current_heap_size o S ns h8 (by omega)
    f0 f1 f2 hn
  obtain ⟨m4, r2, k0, k1, k2⟩ := prev_step s.heap m3 o (S + ns) (o + S - 4) ps (by omega)
    (by omega) (by omega) (by rw [← Nat.add_assoc]; exact g0) g1 g2 hp
  have e0 : getSize (setAllocated s.heap o 0) o = S := by
    rw [getSize_setAllocated_same, hS]
  simp only [myfree, HDR, ptrSub_ok (show 4 ≤ o + 4 by omega), Nat.add_sub_cancel,
    chk_ok (show o + 4 ≤ 4000 by omega), bind, Except.bind, e0,
    ptrSub_ok (show 4 ≤ o + S by omega), chk_ok (show o + S - 4 + 4 ≤ 4000 by omega), r1, r2]
  refine ⟨_, rfl, rfl, ?_, ?_, k2⟩
  · rw [Nat.add_assoc]; exact k0
  · simp only
    rw [k1]
    omega
/-! ## Coalescing on a tag-consistent heap: the walk -/

theorem contig_le : ∀ (bs : List Block) (i j : Nat), Contig i bs j → i + bs.length ≤ j := by
  intro bs
  induction bs with
  | nil => intro i j h; simp only [Contig] at h; simp [h]
  | cons b tl ih =>
    intro i j h
    obtain ⟨_, h2, h3⟩ := h
    have := ih _ _ h3
    simp only [List.length_cons]
    omega

theorem contig_off : ∀ (bs : List Block) (i j : Nat), Contig i bs j →
    ∀ c ∈ bs, i ≤ c.off ∧ c.off + c.size ≤ j := by
  intro bs
  induction bs with
  | nil => intro i j _ c hc; simp at hc
  | cons b tl ih =>
    intro i j h c hc
    obtain ⟨h1, h2, h3⟩ := h
    have hle := contig_le _ _ _ h3
    rcases List.mem_cons.mp hc with rfl | hc
    · omega
    · have := ih _ _ h3 c hc
      omega

theorem contig_append : ∀ (l1 l2 : List Block) (i j : Nat),
    Contig i (l1 ++ l2) j ↔ ∃ k, Contig i l1 k ∧ Contig k l2 j := by
  intro l1
  induction l1 with
  | nil =>
    intro l2 i j
    show Contig i l2 j ↔ ∃ k, i = k ∧ Contig k l2 j
    constructor
    · intro h; exact ⟨i, rfl, h⟩
    · rintro ⟨k, rfl, h⟩; exact h
  | cons b tl ih =>
    intro l2 i j
    show (b.off = i ∧ 0 < b.size ∧ Contig (i + b.size) (tl ++ l2) j) ↔
      ∃ k, (b.off = i ∧ 0 < b.size ∧ Contig (i + b.size) tl k) ∧ Contig k l2 j
    constructor
    · rintro ⟨h1, h2, h3⟩
      obtain ⟨k, h4, h5⟩ := (ih l2 _ j).mp h3
      exact ⟨k, ⟨h1, h2, h4⟩, h5⟩
    · rintro ⟨k, ⟨h1, h2, h3⟩, h4⟩
      exact ⟨h1, h2, (ih l2 _ j).mpr ⟨k, h3, h4⟩⟩

theorem contig_split : ∀ (bs : List Block) (i j : Nat), Contig i bs j → ∀ b ∈ bs,
    ∃ pre post, bs = pre ++ b :: post ∧ Contig i pre b.off ∧ Contig (b.off + b.size) post j := by
  intro bs
  induction bs with
  | nil => intro i j _ b hb; simp at hb
  | cons a tl ih =>
    intro i j h b hb
    obtain ⟨h1, h2, h3⟩ := h
    rcases List.mem_cons.mp hb with rfl | hb
    · exact ⟨[], tl, rfl, h1.symm, by rw [h1]; exact h3⟩
    · obtain ⟨pre, post, e, c1, c2⟩ := ih _ _ h3 b hb
      exact ⟨a :: pre, post, by rw [e]; rfl, ⟨h1, h2, c1⟩, c2⟩

theorem walkFrom_contig (s : State) : ∀ (fuel i : Nat) (bs : List Block),
    walkFrom s fuel i = some bs → Contig i bs (i + (bs.map Block.size).sum) := by
  intro fuel
  induction fuel with
  | zero => intro i bs h; simp [walkFrom] at h
  | succ fuel ih =>
    intro i bs h
    simp only [walkFrom, HDR, INITIAL_HEAP_SIZE] at h
    split_ifs at h with h1 h2 h3
    · simp only [Option.map_eq_some'] at h
      obtain ⟨tl, htl, rfl⟩ := h
      have := ih _ _ htl
      simp only [List.map_cons, List.sum_cons, Contig]
      refine ⟨trivial, Nat.pos_of_ne_zero h3, ?_⟩
      rw [← Nat.add_assoc]
      exact this
    · simp only [Option.some.injEq] at h
      subst h
      simp [Contig]

theorem contig_sum : ∀ (bs : List Block) (i j : Nat), Contig i bs j →
    i + (bs.map Block.size).sum = j := by
  intro bs
  induction bs with
  | nil => intro i j h; simp only [Contig] at h; simp [h]
  | cons b tl ih =>
    intro i j h
    obtain ⟨_, _, h3⟩ := h
    have := ih _ _ h3
    simp only [List.map_cons, List.sum_cons]
    omega

/-- A list of contiguous blocks from `i` to `current_heap_size` whose entries
are what the headers hold, each inside the array, is the header walk from
`i`. -/
theorem walk_of_contig (s : State) : ∀ (bs : List Block)
    (fuel i : Nat), Contig i bs s.current_heap_size →
    (∀ b ∈ bs, 4 ≤ b.size ∧ getSize s.heap b.off = b.size ∧
      getAllocated s.heap b.off = b.allocated ∧ b.off + b.size ≤ 4000) →
    bs.length < fuel → walkFrom s fuel i = some bs := by
  intro bs
  induction bs with
  | nil =>
    intro fuel i h _ hf
    simp only [Contig] at h
    cases fuel with
    | zero => simp at hf
    | succ f =>
      simp only [walkFrom]
      rw [if_neg (by omega)]
  | cons b tl ih =>
    intro fuel i h hr hf
    obtain ⟨h1, h2, h3⟩ := h
    obtain ⟨r1, r2, r3, r4⟩ := hr b (List.mem_cons_self _ _)
    have hle := contig_le _ _ _ h3
    cases fuel with
    | zero => simp at hf
    | succ f =>
      simp only [List.length_cons] at hf
      rw [h1] at r2 r3 r4
      simp only [walkFrom, HDR, INITIAL_HEAP_SIZE, r2, r3]
      rw [if_pos (by omega), if_pos ⟨by omega, by omega⟩, if_neg (by omega),
        ih f _ h3 (fun c hc => hr c (List.mem_cons_of_mem _ hc)) (by omega)]
      simp only [Option.map_some', Option.some.injEq, List.cons.injEq, and_true]
      cases b
      simp only at h1
      subst h1
      rfl

theorem fuseNext_cons_ne (o : Nat) (a : Block) (l : List Block) (h : a.off ≠ o) :
    fuseNext o (a :: l) = a :: fuseNext o l := by
  show (if a.off = o then _ else a :: fuseNext o l) = _
  rw [if_neg h]

theorem fusePrev_cons_ne (o : Nat) (p b : Block) (l : List Block) (h : b.off ≠ o) :
    fusePrev o (p :: b :: l) = p :: fusePrev o (b :: l) := by
  show (if b.off = o then _ else p :: fusePrev o (b :: l)) = _
  rw [if_neg h]

theorem fusePrev_cons_eq (o : Nat) (p b : Block) (l : List Block) (h : b.off = o) :
    fusePrev o (p :: b :: l) =
      if p.allocated = 0 then { off := p.off, size := p.size + b.size, allocated := 0 } :: l
      else p :: b :: l := by
  show (if b.off = o then _ else p :: fusePrev o (b :: l)) = _
  rw [if_pos h]

theorem fuseNext_append (o : Nat) : ∀ (pre l : List Block), (∀ c ∈ pre, c.off ≠ o) →
    fuseNext o (pre ++ l) = pre ++ fuseNext o l := by
  intro pre
  induction pre with
  | nil => intro l _; rfl
  | cons a tl ih =>
    intro l h
    rw [List.cons_append, fuseNext_cons_ne o a _ (h a (List.mem_cons_self _ _)),
      ih l (fun c hc => h c (List.mem_cons_of_mem _ hc)), List.cons_append]

theorem fusePrev_fixed (o : Nat) : ∀ (l : List Block), (∀ c ∈ l.tail, c.off ≠ o) →
    fusePrev o l = l := by
  intro l
  induction l with
  | nil => intro _; rfl
  | cons a tl ih =>
    intro h
    cases tl with
    | nil => rfl
    | cons b rest =>
      simp only [List.tail_cons] at h ih
      rw [fusePrev_cons_ne o a b rest (h b (List.mem_cons_self _ _)),
        ih (fun c hc => h c (List.mem_cons_of_mem _ hc))]

theorem fusePrev_append (o : Nat) (p b : Block) (rest : List Block) (hb : b.off = o) :
    ∀ (pre : List Block), (∀ c ∈ pre, c.off ≠ o) → p.off ≠ o →
    fusePrev o (pre ++ p :: b :: rest) =
      pre ++ (if p.allocated = 0 then
        { off := p.off, size := p.size + b.size, allocated := 0 } :: rest
        else p :: b :: rest) := by
  intro pre
  induction pre with
  | nil =>
    intro _ _
    rw [List.nil_append, List.nil_append, fusePrev_cons_eq o p b rest hb]
  | cons a tl ih =>
    intro h hp
    have ih' := ih (fun c hc => h c (List.mem_cons_of_mem _ hc)) hp
    cases tl with
    | nil =>
      rw [List.nil_append] at ih'
      rw [List.cons_append, List.nil_append, fusePrev_cons_ne o a p _ hp, ih']
      rfl
    | cons x tl' =>
      rw [List.cons_append] at ih'
      rw [List.cons_append, List.cons_append, fusePrev_cons_ne o a x _ (h x (by simp)), ih']
      rfl
/-- What the walk says about the blocks behind `b` is what the forward step of
`myfree` reads, and `fuseNext` is the list it leaves. -/
theorem next_of_list (s : State) (b : Block) (post : List Block)
    (hc : Contig (b.off + b.size) post s.current_heap_size)
    (hr : ∀ c ∈ post, 8 ≤ c.size ∧ c.size = getSize s.heap c.off ∧
      c.allocated = getAllocated s.heap c.off ∧ c.off + c.size ≤ 4000)
    (hin : b.off + b.size ≤ 4000) :
    ∃ ns post', NextInfo s.heap s.current_heap_size b.off b.size ns ∧
      Contig (b.off + b.size + ns) post' s.current_heap_size ∧
      (∀ c ∈ post', c ∈ post) ∧
      fuseNext b.off (b :: post) =
        { off := b.off, size := b.size + ns, allocated := 0 } :: post' ∧
      b.off + b.size + ns ≤ 4000 := by
  cases post with
  | nil =>
    simp only [Contig] at hc
    refine ⟨0, [], Or.inl ⟨rfl, Or.inl (by omega)⟩, ?_, fun c hc => hc, ?_, by omega⟩
    · simp only [Contig]; omega
    · show (if b.off = b.off then _ else _) = _
      rw [if_pos rfl]
      rfl
  | cons n post' =>
    obtain ⟨h1, h2, h3⟩ := hc
    obtain ⟨r1, r2, r3, r4⟩ := hr n (List.mem_cons_self _ _)
    have hle := contig_le _ _ _ h3
    rw [h1] at r2 r3 r4
    by_cases ha : n.allocated = 0
    · refine ⟨n.size, post', Or.inr ⟨by omega, by omega, by omega, r2.symm, by omega⟩, h3,
        fun c hc => List.mem_cons_of_mem _ hc, ?_, by omega⟩
      show (if b.off = b.off then (if n.allocated = 0 then _ else _) else _) = _
      rw [if_pos rfl, if_pos ha]
    · refine ⟨0, n :: post', Or.inl ⟨rfl, Or.inr ⟨by omega, by omega⟩⟩, ⟨h1, h2, h3⟩,
        fun c hc => hc, ?_, by omega⟩
      show (if b.off = b.off then (if n.allocated = 0 then _ else _) else _) = _
      rw [if_pos rfl, if_neg ha]
      rfl

/-- What the walk says about the blocks in front of offset `o` is what the
backward step of `myfree` reads when footers equal headers, and `fusePrev` is
the list it leaves. -/
theorem prev_of_list (s : State) (pre : List Block) (o : Nat) (hc : Contig 0 pre o)
    (hr : ∀ c ∈ pre, 8 ≤ c.size ∧ c.size = getSize s.heap c.off ∧
      c.allocated = getAllocated s.heap c.off ∧
      hdrWord s.heap (c.off + c.size - 4) = hdrWord s.heap c.off) :
    ∃ ps pre', PrevInfo s.heap o ps ∧ ps ≤ o ∧ Contig 0 pre' (o - ps) ∧
      (∀ c ∈ pre', c ∈ pre) ∧
      ∀ (L : Nat) (rest : List Block), (∀ c ∈ rest, c.off ≠ o) →
        fusePrev o (pre ++ { off := o, size := L, allocated := 0 } :: rest) =
          pre' ++ { off := o - ps, size := ps + L, allocated := 0 } :: rest := by
  rcases List.eq_nil_or_concat pre with rfl | ⟨pre0, p, hpe⟩
  · simp only [Contig] at hc
    refine ⟨0, [], Or.inl ⟨rfl, Or.inl hc.symm⟩, by omega, ?_, fun c hc => hc, ?_⟩
    · simp only [Contig]; omega
    · intro L rest hrest
      rw [List.nil_append, List.nil_append, fusePrev_fixed o _ (by simpa using hrest),
        Nat.sub_zero, Nat.zero_add]
  · rw [List.concat_eq_append] at hpe
    subst hpe
    obtain ⟨k, c1, c2, c3, c4⟩ := (contig_append pre0 [p] 0 o).mp hc
    simp only [Contig] at c4
    obtain ⟨r1, r2, r3, r4⟩ := hr p (by simp)
    have hne : ∀ c ∈ pre0, c.off ≠ o := by
      intro c hc0
      have := contig_off _ _ _ c1 c hc0
      have := (hr c (by simp [hc0])).1
      omega
    have hpo : p.off ≠ o := by omega
    have e4 : p.off + p.size - 4 = o - 4 := by omega
    rw [e4] at r4
    have g1 : getSize s.heap (o - 4) = p.size := by
      show hdrWord s.heap (o - 4) % 536870912 = p.size
      rw [r4]; exact r2.symm
    have g2 : getAllocated s.heap (o - 4) = p.allocated := by
      show hdrWord s.heap (o - 4) / 536870912 % 2 = p.allocated
      rw [r4]; exact r3.symm
    have ep : o - p.size = p.off := by omega
    by_cases ha : p.allocated = 0
    · refine ⟨p.size, pre0, Or.inr ⟨by omega, by omega, by omega, g1, ?_, ?_⟩, by omega, ?_,
        fun c hc => by simp [hc], ?_⟩
      · rw [ep]; exact r2.symm
      · rw [ep]; omega
      · rw [ep, c2]; exact c1
      · intro L rest _
        rw [List.append_assoc, List.singleton_append,
          fusePrev_append o p _ rest rfl pre0 hne hpo, if_pos ha, ep]
    · refine ⟨0, pre0 ++ [p], Or.inl ⟨rfl, Or.inr ⟨by omega, by omega⟩⟩, by omega, ?_,
        fun c hc => hc, ?_⟩
      · rw [Nat.sub_zero]; exact hc
      · intro L rest _
        rw [List.append_assoc, List.singleton_append,
          fusePrev_append o p _ rest rfl pre0 hne hpo, if_neg ha, Nat.sub_zero, Nat.zero_add,
          List.append_assoc, List.singleton_append]

/-- C18: on a heap whose header walk `bs` partitions the region and in which
every block has room for its two tags and a footer equal to its header,
`myfree` of the payload address of any block `b` of the walk returns, and the
header walk of the state it leaves is `coalesced b.off bs`: the old walk with
`b` marked free and fused with its free successor and with its free
predecessor (the fused block starts at the predecessor's offset and its size
is the sum of the fused sizes), every other block unchanged. The new walk
partitions the region as well. -/
theorem coalescing_on_consistent_heap (s : State) (bs : List Block) (b : Block)
    (hw : Partitioned s bs) (ht : TagConsistent s bs) (hb : b ∈ bs) :
    ∃ s', myfree s (some (b.off + HDR)) = Except.ok s' ∧
      Partitioned s' (coalesced b.off bs) := by
  obtain ⟨hwalk, hsum⟩ := hw
  have hf := (walkFrom_facts s _ 0 bs hwalk).1
  have hcg := walkFrom_contig s _ 0 bs hwalk
  rw [Nat.zero_add, hsum] at hcg
  obtain ⟨pre, post, e, c1, c2⟩ := contig_split bs 0 _ hcg b hb
  have mpre : ∀ c ∈ pre, c ∈ bs := fun c hc => by rw [e]; simp [hc]
  have mpost : ∀ c ∈ post, c ∈ bs := fun c hc => by rw [e]; simp [hc]
  simp only [TagConsistent, HDR] at ht
  obtain ⟨_, fb2, _, fb4, _⟩ := hf b hb
  have tb := (ht b hb).1
  obtain ⟨ns, post', hn, cn, mn, en, hin⟩ := next_of_list s b post c2
    (fun c hc => ⟨(ht c (mpost c hc)).1, (hf c (mpost c hc)).2.1, (hf c (mpost c hc)).2.2.1,
      (hf c (mpost c hc)).2.2.2.1⟩) fb4
  obtain ⟨ps, pre', hp, hps, cp, mp, ep⟩ := prev_of_list s pre b.off c1
    (fun c hc => ⟨(ht c (mpre c hc)).1, (hf c (mpre c hc)).2.1, (hf c (mpre c hc)).2.2.1,
      (ht c (mpre c hc)).2⟩)
  obtain ⟨s', hfree, hcur, hsame, hsz, hal⟩ :=
    myfree_fuses s b.off b.size ns ps fb2.symm tb hin hn hp
  have hpre_ne : ∀ c ∈ pre, c.off ≠ b.off := by
    intro c hc
    have := contig_off _ _ _ c1 c hc
    have := (ht c (mpre c hc)).1
    omega
  have hpost_ne : ∀ c ∈ post', c.off ≠ b.off := by
    intro c hc
    have := contig_off _ _ _ cn c hc
    omega
  have ecoal : coalesced b.off bs =
      pre' ++ { off := b.off - ps, size := ps + (b.size + ns), allocated := 0 } :: post' := by
    unfold coalesced
    rw [e, fuseNext_append b.off pre _ hpre_ne, en, ep _ _ hpost_ne]
  have hc' : Contig 0
      (pre' ++ { off := b.off - ps, size := ps + (b.size + ns), allocated := 0 } :: post')
      s'.current_heap_size := by
    rw [hcur]
    refine (contig_append _ _ _ _).mpr ⟨b.off - ps, cp, rfl, ?_, ?_⟩
    · show 0 < ps + (b.size + ns)
      omega
    · show Contig (b.off - ps + (ps + (b.size + ns))) post' s.current_heap_size
      rw [show b.off - ps + (ps + (b.size + ns)) = b.off + b.size + ns by omega]
      exact cn
  refine ⟨s', hfree, ?_, ?_⟩
  · rw [ecoal]
    unfold headerWalk
    apply walk_of_contig s' _ _ 0 hc'
    · intro c hc
      rcases List.mem_append.mp hc with hc | hc
      · have b1 := contig_off _ _ _ cp c hc
        obtain ⟨_, f2, f3, f4, _⟩ := hf c (mpre c (mp c hc))
        have t1 := (ht c (mpre c (mp c hc))).1
        have hw0 := hsame c.off (Or.inl (by omega))
        exact ⟨by omega, by rw [getSize_congr hw0]; exact f2.symm,
          by rw [getAllocated_congr hw0]; exact f3.symm, f4⟩
      · rcases List.mem_cons.mp hc with rfl | hc
        · exact ⟨by show 4 ≤ ps + (b.size + ns); omega,
            by show getSize s'.heap (b.off - ps) = ps + (b.size + ns); rw [hsz]; omega,
            hal, by show b.off - ps + (ps + (b.size + ns)) ≤ 4000; omega⟩
        · have b1 := contig_off _ _ _ cn c hc
          obtain ⟨_, f2, f3, f4, _⟩ := hf c (mpost c (mn c hc))
          have t1 := (ht c (mpost c (mn c hc))).1
          have hw0 := hsame c.off (Or.inr (by omega))
          exact ⟨by omega, by rw [getSize_congr hw0]; exact f2.symm,
            by rw [getAllocated_congr hw0]; exact f3.symm, f4⟩
    · have := contig_le _ _ _ hc'
      omega
  · rw [ecoal]
    have := contig_sum _ _ _ hc'
    omega

theorem coalescing_on_consistent_heap_witness :
    Partitioned holeState holeWalk ∧ TagConsistent holeState holeWalk ∧
    ∃ s', myfree holeState (some 68) = Except.ok s' ∧
      Partitioned s' [{ off := 0, size := 32, allocated := 1 },
        { off := 32, size := 3968, allocated := 0 }] :=
  ⟨⟨by decide, by decide⟩, by decide,
    coalescing_on_consistent_heap holeState holeWalk { off := 64, size := 32, allocated := 1 }
      ⟨by decide, by decide⟩ (by decide) (by decide)⟩
/-! ## The payload frame -/

/-- C19 (payload frame, violated by the code): after the ten operations below
address 4 is live with a request of 24 bytes, so its payload is `[4, 28)`, and
address 68 is live too.  `myfree(68)` changes the payload byte at offset 16
from 48 to 144 and the one at offset 17 from 0 to 15. -/
theorem free_writes_into_live_payload :
    (run [Op.alloc 8, Op.alloc 8, Op.alloc 8, Op.alloc 8, Op.alloc 8, Op.free 4, Op.free 36,
          Op.free 20, Op.free 52, Op.alloc 24]).toOption.bind
      (fun y => (exec y (Op.free 68)).toOption.map
        (fun r => (y.live, r.1.live, [y.st.heap 16, y.st.heap 17],
          [r.1.st.heap 16, r.1.st.heap 17])))
    = some ([(4, 24), (68, 8)], [(4, 24)], [48, 0], [144, 15]) := by
  decide

/-! ## Requests near the top of `size_t` -/

/-- C20 (oversized requests, accepted by the code): on a fresh heap the request
`2 ^ 64 - 8`, the `size_t` image of `-8`, is far above `current_heap_size`, yet
`total_size` wraps to 0 and `myalloc` returns offset 4 and marks the whole
4000-byte block allocated. -/
theorem wrapped_request_succeeds :
    (totalSize 18446744073709551608, returned [] (Op.alloc 18446744073709551608),
      visitedAfter [Op.alloc 18446744073709551608])
    = (0, some 4, [{ off := 0, size := 4000, allocated := 1 }]) := by
  decide

end Memory
